import Mathlib

/-!
Verification development for the dsrs-core adapter protocol.

The definitions below are a shallow embedding of the Rust sources in
crates/dsrs-core/src: the two adapters (chat_adapter.rs, json_adapter.rs),
the schema reflector (schema_parser.rs), the provider data model
(providers/models.rs) and the generic generation control loop
(adapters/traits.rs).

Modelling conventions, used throughout:
* JSON values (serde_json::Value) are the inductive `Json` below.  JSON
  integral number literals are modelled as integers; a literal with a
  fraction or exponent part is consumed in full, as serde does, and kept
  as its literal text (`numRaw`) — the development never needs its
  floating value, only which texts parse as numbers.
* serde_json::Map is BTreeMap-backed in the default build: iteration is
  ordered by key and inserting an existing key overwrites.  `sortEntries`
  models collecting entries into such a map.
* Rust strings are modelled as Lean `String` / `List Char`; byte offsets
  coincide with character offsets on the ASCII inputs considered here.
  Whitespace (char::is_whitespace, str::trim) is modelled by the ASCII
  subset space, tab, carriage return, line feed.
* Errors (anyhow::Error, ProviderError, serde errors) are modelled as
  `Except String`.
-/

/-- Model of serde_json::Value.  Object fields carry the underlying entry
list; `sortEntries` below reproduces the ordered-map view. -/
inductive Json where
  | null : Json
  | bool (b : Bool) : Json
  | num (n : Int) : Json
  | numRaw (lit : String) : Json
  | str (s : String) : Json
  | arr (elems : List Json) : Json
  | obj (fields : List (String × Json)) : Json
  deriving Repr

mutual

/-- Decidable equality on Json values (the derive handler does not support
this nested inductive, so it is spelled out). -/
def Json.decEq : (a b : Json) → Decidable (a = b)
  | .null, .null => .isTrue rfl
  | .bool a, .bool b =>
    if h : a = b then .isTrue (by rw [h]) else .isFalse (fun e => h (Json.bool.inj e))
  | .num a, .num b =>
    if h : a = b then .isTrue (by rw [h]) else .isFalse (fun e => h (Json.num.inj e))
  | .numRaw a, .numRaw b =>
    if h : a = b then .isTrue (by rw [h]) else .isFalse (fun e => h (Json.numRaw.inj e))
  | .str a, .str b =>
    if h : a = b then .isTrue (by rw [h]) else .isFalse (fun e => h (Json.str.inj e))
  | .arr xs, .arr ys =>
    match Json.decEqList xs ys with
    | .isTrue h => .isTrue (by rw [h])
    | .isFalse h => .isFalse (fun e => h (Json.arr.inj e))
  | .obj fs, .obj gs =>
    match Json.decEqEntries fs gs with
    | .isTrue h => .isTrue (by rw [h])
    | .isFalse h => .isFalse (fun e => h (Json.obj.inj e))
  | .null, .bool _ => .isFalse (fun e => nomatch e)
  | .null, .num _ => .isFalse (fun e => nomatch e)
  | .null, .numRaw _ => .isFalse (fun e => nomatch e)
  | .null, .str _ => .isFalse (fun e => nomatch e)
  | .null, .arr _ => .isFalse (fun e => nomatch e)
  | .null, .obj _ => .isFalse (fun e => nomatch e)
  | .bool _, .null => .isFalse (fun e => nomatch e)
  | .bool _, .num _ => .isFalse (fun e => nomatch e)
  | .bool _, .numRaw _ => .isFalse (fun e => nomatch e)
  | .bool _, .str _ => .isFalse (fun e => nomatch e)
  | .bool _, .arr _ => .isFalse (fun e => nomatch e)
  | .bool _, .obj _ => .isFalse (fun e => nomatch e)
  | .num _, .null => .isFalse (fun e => nomatch e)
  | .num _, .bool _ => .isFalse (fun e => nomatch e)
  | .num _, .numRaw _ => .isFalse (fun e => nomatch e)
  | .num _, .str _ => .isFalse (fun e => nomatch e)
  | .num _, .arr _ => .isFalse (fun e => nomatch e)
  | .num _, .obj _ => .isFalse (fun e => nomatch e)
  | .numRaw _, .null => .isFalse (fun e => nomatch e)
  | .numRaw _, .bool _ => .isFalse (fun e => nomatch e)
  | .numRaw _, .num _ => .isFalse (fun e => nomatch e)
  | .numRaw _, .str _ => .isFalse (fun e => nomatch e)
  | .numRaw _, .arr _ => .isFalse (fun e => nomatch e)
  | .numRaw _, .obj _ => .isFalse (fun e => nomatch e)
  | .str _, .null => .isFalse (fun e => nomatch e)
  | .str _, .bool _ => .isFalse (fun e => nomatch e)
  | .str _, .num _ => .isFalse (fun e => nomatch e)
  | .str _, .numRaw _ => .isFalse (fun e => nomatch e)
  | .str _, .arr _ => .isFalse (fun e => nomatch e)
  | .str _, .obj _ => .isFalse (fun e => nomatch e)
  | .arr _, .null => .isFalse (fun e => nomatch e)
  | .arr _, .bool _ => .isFalse (fun e => nomatch e)
  | .arr _, .num _ => .isFalse (fun e => nomatch e)
  | .arr _, .numRaw _ => .isFalse (fun e => nomatch e)
  | .arr _, .str _ => .isFalse (fun e => nomatch e)
  | .arr _, .obj _ => .isFalse (fun e => nomatch e)
  | .obj _, .null => .isFalse (fun e => nomatch e)
  | .obj _, .bool _ => .isFalse (fun e => nomatch e)
  | .obj _, .num _ => .isFalse (fun e => nomatch e)
  | .obj _, .numRaw _ => .isFalse (fun e => nomatch e)
  | .obj _, .str _ => .isFalse (fun e => nomatch e)
  | .obj _, .arr _ => .isFalse (fun e => nomatch e)

/-- Decidable equality on Json lists. -/
def Json.decEqList : (a b : List Json) → Decidable (a = b)
  | [], [] => .isTrue rfl
  | [], _ :: _ => .isFalse (fun e => nomatch e)
  | _ :: _, [] => .isFalse (fun e => nomatch e)
  | x :: xs, y :: ys =>
    match Json.decEq x y with
    | .isTrue h1 =>
      match Json.decEqList xs ys with
      | .isTrue h2 => .isTrue (by rw [h1, h2])
      | .isFalse h2 => .isFalse (fun e => h2 (List.cons.inj e).2)
    | .isFalse h1 => .isFalse (fun e => h1 (List.cons.inj e).1)

/-- Decidable equality on Json object entry lists. -/
def Json.decEqEntries : (a b : List (String × Json)) → Decidable (a = b)
  | [], [] => .isTrue rfl
  | [], _ :: _ => .isFalse (fun e => nomatch e)
  | _ :: _, [] => .isFalse (fun e => nomatch e)
  | (k, v) :: xs, (k', v') :: ys =>
    if hk : k = k' then
      match Json.decEq v v' with
      | .isTrue h1 =>
        match Json.decEqEntries xs ys with
        | .isTrue h2 => .isTrue (by rw [hk, h1, h2])
        | .isFalse h2 => .isFalse (fun e => h2 (List.cons.inj e).2)
      | .isFalse h1 =>
        .isFalse (fun e => h1 (congrArg Prod.snd (List.cons.inj e).1))
    else .isFalse (fun e => hk (congrArg Prod.fst (List.cons.inj e).1))

end

instance : DecidableEq Json := Json.decEq

/-- Lexicographic strict order on character lists by code point (the byte
order Rust String Ord uses, restricted to ASCII). -/
def charsLt : List Char → List Char → Bool
  | [], [] => false
  | [], _ :: _ => true
  | _ :: _, [] => false
  | a :: as, b :: bs =>
    if a.toNat < b.toNat then true
    else if b.toNat < a.toNat then false
    else charsLt as bs

/-- The key order of serde_json::Map (BTreeMap over Rust String Ord). -/
def keyLt (a b : String) : Bool := charsLt a.data b.data

/-- Insert into a key-sorted association list, overwriting an equal key:
the BTreeMap insert underlying serde_json::Map. -/
def mapInsert (k : String) (v : Json) : List (String × Json) → List (String × Json)
  | [] => [(k, v)]
  | (k', v') :: rest =>
    if k = k' then (k, v) :: rest
    else if keyLt k k' then (k, v) :: (k', v') :: rest
    else (k', v') :: mapInsert k v rest

/-- Collect entries into a serde_json::Map: key-ordered, last write wins. -/
def sortEntries (l : List (String × Json)) : List (String × Json) :=
  l.foldl (fun m kv => mapInsert kv.1 kv.2 m) []

/-- Iteration over a serde_json::Map built from the given entries. -/
def Json.objEntries : Json → List (String × Json)
  | .obj fields => sortEntries fields
  | _ => []

/-- Value::get(key): key lookup on an object, None otherwise. -/
def Json.get? : Json → String → Option Json
  | .obj fields, k => (sortEntries fields).lookup k
  | _, _ => none

/-- Value::as_str. -/
def Json.asStr : Json → Option String
  | .str s => some s
  | _ => none

/-- Value::as_array. -/
def Json.asArr : Json → Option (List Json)
  | .arr xs => some xs
  | _ => none

/-! ### Character and line utilities (models of Rust str operations) -/

/-- ASCII model of char::is_whitespace (the inputs considered are ASCII). -/
def isWsChar (c : Char) : Bool :=
  c = ' ' || c = '\t' || c = '\n' || c = '\r'

/-- ASCII model of the regex class backslash-w: [A-Za-z0-9_]. -/
def isWordChar (c : Char) : Bool :=
  ('a' ≤ c && c ≤ 'z') || ('A' ≤ c && c ≤ 'Z') || ('0' ≤ c && c ≤ '9') || c = '_'

/-- str::trim on character lists. -/
def trimChars (cs : List Char) : List Char :=
  ((cs.dropWhile isWsChar).reverse.dropWhile isWsChar).reverse

/-- Split a character list at every newline; the result always has one more
segment than there are newlines. -/
def splitNl : List Char → List (List Char)
  | [] => [[]]
  | c :: rest =>
    if c = '\n' then [] :: splitNl rest
    else
      match splitNl rest with
      | l :: ls => (c :: l) :: ls
      | [] => [[c]]

/-- Drop one trailing carriage return, as str::lines does per line. -/
def stripCr (cs : List Char) : List Char :=
  match cs.getLast? with
  | some c => if c = '\r' then cs.dropLast else cs
  | none => cs

/-- str::lines: split at newlines, drop the trailing empty segment produced
by a final newline (or by the empty string), strip one trailing CR per line. -/
def rustLines (cs : List Char) : List (List Char) :=
  let segs := splitNl cs
  let segs := if segs.getLast? = some [] then segs.dropLast else segs
  segs.map stripCr

/-- Join lines with newlines (Vec::join("\n") at character level). -/
def joinNl : List (List Char) → List Char
  | [] => []
  | [l] => l
  | l :: l2 :: rest => l ++ '\n' :: joinNl (l2 :: rest)

/-- Vec::join / slice::join on strings. -/
def joinSep (sep : String) : List String → String
  | [] => ""
  | [x] => x
  | x :: y :: rest => x ++ sep ++ joinSep sep (y :: rest)

/-! ### JSON text parsing (model of serde_json::from_str) -/

/-- Skip JSON whitespace. -/
def skipWs (cs : List Char) : List Char := cs.dropWhile isWsChar

/-- Unescape one escape character inside a JSON string literal (the escapes
the pretty printer below can emit). -/
def unescapeChar : Char → Option Char
  | '"' => .some '"'
  | '\\' => .some '\\'
  | '/' => .some '/'
  | 'n' => .some '\n'
  | 't' => .some '\t'
  | 'r' => .some '\r'
  | _ => none

/-- Parse the body of a JSON string literal after its opening quote; returns
the content and the remainder after the closing quote. -/
def parseStrBody : List Char → Option (List Char × List Char)
  | [] => none
  | '"' :: rest => some ([], rest)
  | '\\' :: e :: rest =>
    match unescapeChar e with
    | some c => (parseStrBody rest).map (fun p => (c :: p.1, p.2))
    | none => none
  | c :: rest =>
    if c = '\\' then none
    else (parseStrBody rest).map (fun p => (c :: p.1, p.2))

/-- Parse a nonempty digit run into a natural number. -/
def parseDigits : List Char → Option (Nat × List Char)
  | cs =>
    let ds := cs.takeWhile Char.isDigit
    if ds.isEmpty then none
    else some (ds.foldl (fun n c => n * 10 + (c.toNat - 48)) 0, cs.drop ds.length)

/-- Parse the optional exponent part of a number literal: when the text
starts with e or E the exponent digits (after an optional sign) must be
nonempty or the whole number fails, as in serde; otherwise nothing is
consumed. -/
def parseExpTail : List Char → Option (List Char × List Char)
  | c :: r =>
    if c = 'e' || c = 'E' then
      match r with
      | s :: r2 =>
        if s = '+' || s = '-' then
          let ds := r2.takeWhile Char.isDigit
          if ds.isEmpty then none else some (c :: s :: ds, r2.drop ds.length)
        else
          let ds := r.takeWhile Char.isDigit
          if ds.isEmpty then none else some (c :: ds, r.drop ds.length)
      | [] => none
    else some ([], c :: r)
  | [] => some ([], [])

/-- Parse a JSON number literal after an optional leading minus (the
caller consumed it): integer digits, an optional fraction whose digits
must be nonempty, an optional exponent.  An integral literal yields its
Int value; a fractional or exponent literal is consumed in full and kept
as its text. -/
def parseNumber (neg : Bool) (cs : List Char) : Option (Json × List Char) :=
  let intDs := cs.takeWhile Char.isDigit
  if intDs.isEmpty then none
  else
    let r1 := cs.drop intDs.length
    let frac : Option (List Char × List Char) :=
      match r1 with
      | '.' :: r2 =>
        let frDs := r2.takeWhile Char.isDigit
        if frDs.isEmpty then none else some ('.' :: frDs, r2.drop frDs.length)
      | _ => some ([], r1)
    match frac with
    | none => none
    | some (frCs, r3) =>
      match parseExpTail r3 with
      | none => none
      | some (expCs, r4) =>
        if frCs.isEmpty && expCs.isEmpty then
          let n : Int := intDs.foldl (fun n c => n * 10 + ((c.toNat : Int) - 48)) 0
          some (.num (if neg then -n else n), r4)
        else
          some (.numRaw (String.mk
            ((if neg then ['-'] else []) ++ intDs ++ frCs ++ expCs)), r4)

mutual

/-- Parse one JSON value; fuel bounds the recursion and is in practice at
least the input length plus one. -/
def parseV : Nat → List Char → Option (Json × List Char)
  | 0, _ => none
  | fuel + 1, cs =>
    match skipWs cs with
    | '{' :: rest =>
      match skipWs rest with
      | '}' :: rest' => some (.obj [], rest')
      | rest' => parseMembers fuel rest' []
    | '[' :: rest =>
      match skipWs rest with
      | ']' :: rest' => some (.arr [], rest')
      | rest' => parseElems fuel rest' []
    | '"' :: rest => (parseStrBody rest).map (fun p => (.str (String.mk p.1), p.2))
    | 'n' :: 'u' :: 'l' :: 'l' :: rest => some (.null, rest)
    | 't' :: 'r' :: 'u' :: 'e' :: rest => some (.bool true, rest)
    | 'f' :: 'a' :: 'l' :: 's' :: 'e' :: rest => some (.bool false, rest)
    | '-' :: rest => parseNumber true rest
    | cs' => parseNumber false cs'

/-- Parse the members of a JSON object after its opening brace (first member
pending); returns the object with serde_json::Map collection semantics. -/
def parseMembers : Nat → List Char → List (String × Json) → Option (Json × List Char)
  | 0, _, _ => none
  | fuel + 1, cs, acc =>
    match cs with
    | '"' :: rest =>
      match parseStrBody rest with
      | some (k, r1) =>
        match skipWs r1 with
        | ':' :: r2 =>
          match parseV fuel r2 with
          | some (v, r3) =>
            match skipWs r3 with
            | ',' :: r4 => parseMembers fuel (skipWs r4) (acc ++ [(String.mk k, v)])
            | '}' :: r4 => some (.obj (sortEntries (acc ++ [(String.mk k, v)])), r4)
            | _ => none
          | none => none
        | _ => none
      | none => none
    | _ => none

/-- Parse the elements of a JSON array after its opening bracket (first
element pending). -/
def parseElems : Nat → List Char → List Json → Option (Json × List Char)
  | 0, _, _ => none
  | fuel + 1, cs, acc =>
    match parseV fuel cs with
    | some (v, r1) =>
      match skipWs r1 with
      | ',' :: r2 => parseElems fuel r2 (acc ++ [v])
      | ']' :: r2 => some (.arr (acc ++ [v]), r2)
      | _ => none
    | none => none

end

/-- serde_json::from_str::<Value> on a character list: parse one value and
require only whitespace to remain. -/
def jsonParseChars (cs : List Char) : Option Json :=
  match parseV (cs.length + 1) cs with
  | some (v, rest) => if skipWs rest = [] then some v else none
  | none => none

/-- serde_json::from_str::<Value> on a string. -/
def jsonParse (s : String) : Option Json := jsonParseChars s.data

/-! ### JSON pretty printing (model of serde_json::to_string_pretty) -/

/-- Escape one character for a JSON string literal. -/
def escapeChar : Char → List Char
  | '"' => '\\' :: ['"']
  | '\\' => '\\' :: ['\\']
  | '\n' => '\\' :: ['n']
  | '\t' => '\\' :: ['t']
  | '\r' => '\\' :: ['r']
  | c => [c]

/-- Render a JSON string literal. -/
def quoteStr (s : String) : List Char :=
  '"' :: (s.data.flatMap escapeChar) ++ ['"']

/-- Decimal digits of a natural number. -/
def natChars (n : Nat) : List Char := Nat.toDigits 10 n

/-- Decimal rendering of an integer. -/
def intChars : Int → List Char
  | .ofNat n => natChars n
  | .negSucc n => '-' :: natChars (n + 1)

/-- A run of spaces. -/
def spaces (n : Nat) : List Char := List.replicate n ' '

mutual

/-- serde_json::to_string_pretty with two-space indentation; `ind` is the
current indentation width. -/
def ppJson : Json → Nat → List Char
  | .null, _ => "null".data
  | .bool true, _ => "true".data
  | .bool false, _ => "false".data
  | .num n, _ => intChars n
  | .numRaw lit, _ => lit.data
  | .str s, _ => quoteStr s
  | .arr [], _ => ['[', ']']
  | .arr (x :: xs), ind =>
    '[' :: '\n' :: ppElems (x :: xs) (ind + 2) ++ '\n' :: spaces ind ++ [']']
  | .obj [], _ => ['{', '}']
  | .obj (f :: fs), ind =>
    '{' :: '\n' :: ppFields (f :: fs) (ind + 2) ++ '\n' :: spaces ind ++ ['}']

/-- Pretty-print array elements, comma-newline separated, each indented. -/
def ppElems : List Json → Nat → List Char
  | [], _ => []
  | [x], ind => spaces ind ++ ppJson x ind
  | x :: y :: xs, ind =>
    spaces ind ++ ppJson x ind ++ ',' :: '\n' :: ppElems (y :: xs) ind

/-- Pretty-print object members, comma-newline separated, each indented. -/
def ppFields : List (String × Json) → Nat → List Char
  | [], _ => []
  | [(k, v)], ind => spaces ind ++ quoteStr k ++ ':' :: ' ' :: ppJson v ind
  | (k, v) :: g :: fs, ind =>
    spaces ind ++ quoteStr k ++ ':' :: ' ' :: ppJson v ind ++ ',' :: '\n' :: ppFields (g :: fs) ind

end

/-- serde_json::to_string_pretty.  A value standing for a serde_json::Value
already has key-sorted, duplicate-free object entries (the map invariant),
so iteration order is the stored entry order. -/
def toStringPretty (j : Json) : String := String.mk (ppJson j 0)

/-! ### JSON_PATTERN (json_adapter.rs, line 11).
The source writes the pattern with PCRE-style recursion, (?R), which the
Rust regex crate does not support.  On regex < 1.8 the group is a syntax
error, so the lazy_static Regex::new(...).unwrap() panics at the
pattern's first use.  On regex >= 1.8 the group parses as the inline
flag setting (?R) — R is the CRLF-mode flag — which matches the empty
string, so the pattern is equivalent to an opening brace, a run of
non-brace characters, and a closing brace, and .find returns the
leftmost such innermost pair.  The model embeds the regex >= 1.8
behavior; it never extracts a span with nested braces. -/

/-- The innermost-pair match at the start of the text: an opening brace,
a run of non-brace characters, and a closing brace. -/
def braceSpanAt (cs : List Char) : Option (List Char) :=
  match cs with
  | '{' :: rest =>
    let mid := rest.takeWhile (fun c => !(c = '{' || c = '}'))
    match rest.drop mid.length with
    | '}' :: _ => some ('{' :: (mid ++ ['}']))
    | _ => none
  | _ => none

/-- JSON_PATTERN.find: the leftmost innermost brace pair of the text. -/
def findJsonSpan : List Char → Option (List Char)
  | [] => none
  | c :: rest =>
    match braceSpanAt (c :: rest) with
    | some m => some m
    | none => findJsonSpan rest

/-! ### FIELD_HEADER_PATTERN (chat_adapter.rs): the regex
matching a section header with one word capture group. -/

/-- Match the header pattern at the start of the text: the literal open
bracket pair and hash marks, a nonempty word, and the closing marks.
Returns the captured word and the match length. -/
def matchHeaderAt (cs : List Char) : Option (String × Nat) :=
  match cs with
  | '[' :: '[' :: ' ' :: '#' :: '#' :: ' ' :: rest =>
    let w := rest.takeWhile isWordChar
    if w.isEmpty then none
    else
      match rest.drop w.length with
      | ' ' :: '#' :: '#' :: ' ' :: ']' :: ']' :: _ => some (String.mk w, 6 + w.length + 6)
      | _ => none
  | _ => none

/-- Regex find: try the pattern at each position left to right; return the
captured word and the end offset of the whole match. -/
def findHeaderFrom : List Char → Nat → Option (String × Nat)
  | [], _ => none
  | c :: rest, i =>
    match matchHeaderAt (c :: rest) with
    | some (w, len) => some (w, i + len)
    | none => findHeaderFrom rest (i + 1)

/-- FIELD_HEADER_PATTERN.captures on a line: leftmost match. -/
def findHeader (cs : List Char) : Option (String × Nat) := findHeaderFrom cs 0

/-! ### ChatAdapter::parse (chat_adapter.rs, lines 139-178) -/

/-- One step of the section-splitting loop: a line whose trimmed text
contains a header opens a new section; the rest of the original line from
the match end offset (an offset into the trimmed line — the source slices
the untrimmed line with it), trimmed, is the pending first content line.
Any other line is appended to the open section buffer. -/
def chatLineStep (sections : List (Option String × List (List Char))) (line : List Char) :
    List (Option String × List (List Char)) :=
  match findHeader (trimChars line) with
  | some (header, matchEnd) =>
    let remaining := trimChars (line.drop matchEnd)
    sections ++ [(some header, if remaining.isEmpty then [] else [remaining])]
  | none =>
    match sections.dropLast, sections.getLast? with
    | init, some (k, buf) => init ++ [(k, buf ++ [line])]
    | _, none => sections

/-- The section-splitting fold over the completion lines, starting from the
single unkeyed section. -/
def chatSections (completion : List Char) : List (Option String × List (List Char)) :=
  (rustLines completion).foldl chatLineStep [(none, [])]

/-- Reduce each keyed section to its newline-joined, trimmed text (the
filter_map dropping the unkeyed initial section). -/
def keyedSections (completion : List Char) : List (String × String) :=
  (chatSections completion).filterMap
    (fun s => s.1.map (fun k => (k, String.mk (trimChars (joinNl s.2)))))

/-- Parse a section text as JSON if valid, else keep it as a raw string. -/
def jsonOrString (s : String) : Json :=
  match jsonParse s with
  | some j => j
  | none => .str s

/-- The JSON object a ChatAdapter parse assembles from a completion: collect
sections into a map (last write wins), drop the `completed` key, parse each
remaining section text as JSON or keep it as a string. -/
def chatAssemble (completion : String) : Json :=
  .obj (sortEntries
    (((keyedSections completion.data).filter (fun kv => kv.1 ≠ "completed")).map
      (fun kv => (kv.1, jsonOrString kv.2))))

/-- ChatAdapter::parse.  The final serde_json::from_value into S::Outputs is
the `decode` parameter (it is determined by the output type, not by the
schema argument, which the source ignores). -/
def chatParse (decode : Json → Except String α) (completion : String) (_schema : Json) :
    Except String α :=
  decode (chatAssemble completion)

/-! ### Schema reflection (schema_parser.rs) -/

/-- FieldInfo (schema_parser.rs lines 7-13). -/
structure FieldInfo where
  name : String
  typeName : String
  description : Option String
  required : Bool
  deriving Repr, DecidableEq

/-- The composite/reference/unknown fallbacks of extract_type_name_from_json,
checked after the `type` key. -/
def extractTypeFallback (fieldJson : Json) : String :=
  if (fieldJson.get? "anyOf").isSome then "AnyOf"
  else if (fieldJson.get? "oneOf").isSome then "OneOf"
  else if (fieldJson.get? "allOf").isSome then "AllOf"
  else if (fieldJson.get? "$ref").isSome then "Reference"
  else "Unknown"

/-- extract_type_name_from_json (schema_parser.rs lines 74-117): a string
`type` maps primitives to fixed labels and anything else to itself; an
array `type` joins its string elements; otherwise the fallbacks apply. -/
def extractTypeName (fieldJson : Json) : String :=
  match fieldJson.get? "type" with
  | some (.str ts) =>
    match ts with
    | "string" => "String"
    | "number" => "Number"
    | "integer" => "Integer"
    | "boolean" => "Boolean"
    | "array" => "Array"
    | "object" => "Object"
    | "null" => "Null"
    | _ => ts
  | some (.arr ta) => joinSep " | " (ta.filterMap Json.asStr)
  | some _ => extractTypeFallback fieldJson
  | none => extractTypeFallback fieldJson

/-- extract_field_info_from_json. -/
def extractFieldInfo (name : String) (fieldJson : Json) (required : Bool) : FieldInfo :=
  { name := name
    typeName := extractTypeName fieldJson
    description := (fieldJson.get? "description").bind Json.asStr
    required := required }

/-- extract_fields_from_json (schema_parser.rs lines 25-55): navigate
`object.properties` and `object.required` of the reflected schema document.
MODEL REDUCTION: the source collects the fields into a
std::collections::HashMap, and every consumer iterates that map, so the
program's field order is arbitrary (per-process randomized).  A
deterministic embedding cannot reproduce that; this model fixes the
key-sorted iteration order of the serde_json properties map as one
canonical representative.  Only order-insensitive consequences (which
fields exist, what each contains, containment in rendered text) transfer
to the program; no theorem may read the list's order as a program
guarantee. -/
def extractFieldsJson (schemaJson : Json) : List (String × FieldInfo) :=
  match schemaJson.get? "object" with
  | some objectDef =>
    match objectDef.get? "properties" with
    | some (.obj propFields) =>
      let requiredFields : List String :=
        match objectDef.get? "required" with
        | some r =>
          match r.asArr with
          | some items => items.filterMap Json.asStr
          | none => []
        | none => []
      (sortEntries propFields).map (fun kv =>
        (kv.1, extractFieldInfo kv.1 kv.2 (requiredFields.contains kv.1)))
    | _ => []
  | none => []

/-- extract_fields_from_schema: the schema value is already its structural
JSON document in this model. -/
def extractFields (schema : Json) : List (String × FieldInfo) := extractFieldsJson schema

/-- The names of the extracted fields, in extraction order. -/
def extractFieldNames (schema : Json) : List String := (extractFields schema).map (·.1)

/-! ### Shared formatting helper (utils.rs) -/

/-- format_value: a JSON string renders as its raw content, anything else
pretty-prints. -/
def formatValue (j : Json) : String :=
  match j with
  | .str s => s
  | v => toStringPretty v

/-! ### ChatAdapter formatting (chat_adapter.rs) -/

/-- The delimited section header for a field name. -/
def headerFor (name : String) : String := "[[ ## " ++ name ++ " ## ]]"

/-- ChatAdapter::format_field_description. -/
def chatFormatFieldDescription (schema : Json) : String :=
  joinSep "\n" ((extractFields schema).map (fun kv =>
    "- " ++ kv.1 ++ ": " ++ kv.2.description.getD "No description"))

/-- ChatAdapter::format_field_structure. -/
def chatFormatFieldStructure (inputSchema outputSchema : Json) : String :=
  joinSep "\n\n"
    (["All interactions will be structured in the following way, with the appropriate values filled in."]
      ++ (extractFields inputSchema).map (fun kv => headerFor kv.1 ++ "\n" ++ kv.2.typeName)
      ++ (extractFields outputSchema).map (fun kv => headerFor kv.1 ++ "\n" ++ kv.2.typeName)
      ++ [headerFor "completed"])

/-- ChatAdapter::format_task_description. -/
def chatFormatTaskDescription (instructions : String) : String :=
  "In adhering to this structure, your objective is:\n" ++
    joinSep "\n"
      ((rustLines instructions.data).map (fun l => String.mk (spaces 8 ++ l)))

/-- The output-requirements sentence appended to every chat user message.
The source computes the field list from schema_for!(S::Outputs) — the FULL
output schema of the signature, not its prompt output schema. -/
def chatOutputRequirements (fullOutputSchema : Json) : String :=
  "Respond with the corresponding output fields, starting with the field " ++
    joinSep ", then "
      ((extractFields fullOutputSchema).map (fun kv => "`" ++ headerFor kv.1 ++ "`")) ++
    ", and then ending with the marker for `[[ ## completed ## ]]`."

/-- ChatAdapter::format_user_message_content.  `fullOutputSchema` stands for
schema_for!(S::Outputs), fixed by the signature type. -/
def chatFormatUserMessageContent (fullOutputSchema : Json) (inputs : Json) (schema : Json) :
    String :=
  let parts : List String :=
    match inputs with
    | .obj _ =>
      (extractFields schema).filterMap (fun kv =>
        (inputs.get? kv.1).map (fun v => headerFor kv.1 ++ "\n" ++ formatValue v))
    | _ => []
  joinSep "\n\n" (parts ++ [chatOutputRequirements fullOutputSchema])

/-- ChatAdapter::format_assistant_message_content. -/
def chatFormatAssistantMessageContent (outputs : Json) (schema : Json) : String :=
  let parts : List String :=
    match outputs with
    | .obj _ =>
      (extractFields schema).filterMap (fun kv =>
        (outputs.get? kv.1).map (fun v => headerFor kv.1 ++ "\n" ++ formatValue v))
    | _ => []
  joinSep "\n\n" (parts ++ [headerFor "completed"])

/-! ### JsonAdapter (json_adapter.rs) -/

/-- JsonAdapter::format_field_description. -/
def jsonFormatFieldDescription (schema : Json) : String :=
  joinSep "\n" ((extractFields schema).map (fun kv =>
    "- " ++ kv.1 ++ ": " ++ kv.2.description.getD "No description" ++
      " (" ++ kv.2.typeName ++ ")"))

/-- JsonAdapter::format_field_structure. -/
def jsonFormatFieldStructure (inputSchema outputSchema : Json) : String :=
  joinSep "\n"
    ["All interactions will be structured in the following way:", "",
     "Input fields:", jsonFormatFieldDescription inputSchema, "",
     "Output will be a JSON object with the following fields:",
     jsonFormatFieldDescription outputSchema]

/-- JsonAdapter::format_task_description. -/
def jsonFormatTaskDescription (instructions : String) : String :=
  "Your task: " ++ instructions

/-- JsonAdapter::format_user_message_content; `fullOutputSchema` again
stands for schema_for!(S::Outputs). -/
def jsonFormatUserMessageContent (fullOutputSchema : Json) (inputs : Json) (schema : Json) :
    String :=
  let parts : List String :=
    match inputs with
    | .obj _ =>
      (extractFields schema).filterMap (fun kv =>
        (inputs.get? kv.1).map (fun v => kv.1 ++ ": " ++ formatValue v))
    | _ => []
  joinSep "\n"
    (parts ++ ["\nRespond with a JSON object containing these fields: " ++
      joinSep ", " (extractFieldNames fullOutputSchema)])

/-- JsonAdapter::format_assistant_message_content. -/
def jsonFormatAssistantMessageContent (outputs : Json) (_schema : Json) : String :=
  toStringPretty outputs

/-- JsonAdapter::parse (json_adapter.rs lines 93-102): take the first
balanced-brace span (or the whole completion if none) and deserialize it;
`decode` is the typed stage of serde_json::from_str::<S::Outputs>. -/
def jsonAdapterParse (decode : Json → Except String α) (completion : String) (_schema : Json) :
    Except String α :=
  let jsonStr := (findJsonSpan completion.data).getD completion.data
  match jsonParseChars jsonStr with
  | some j => decode j
  | none => .error "Failed to parse JSON response"

/-! ### Provider data model (providers/models.rs) -/

/-- ToolCall. -/
structure ToolCall where
  id : String
  name : String
  arguments : Json
  deriving Repr, DecidableEq

/-- AvailableTool. -/
structure AvailableTool where
  name : String
  desc : String
  inputSchemaJson : Option Json
  deriving Repr, DecidableEq

/-- ContentTypes. -/
inductive ContentTypes where
  | text (s : String) : ContentTypes
  deriving Repr, DecidableEq

/-- Message. -/
inductive Message where
  | system (content : ContentTypes) : Message
  | user (content : ContentTypes) : Message
  | assistant (content : Option ContentTypes) (toolCalls : Option (List ToolCall)) : Message
  | tool (content : ContentTypes) (toolCallId : String) : Message
  deriving Repr, DecidableEq

/-- Message::system. -/
def Message.mkSystem (content : String) : Message := .system (.text content)

/-- Message::user. -/
def Message.mkUser (content : String) : Message := .user (.text content)

/-- Message::assistant. -/
def Message.mkAssistant (content : Option String) (toolCalls : Option (List ToolCall)) :
    Message :=
  .assistant (content.map .text) toolCalls

/-- CompletionConfig. -/
structure CompletionConfig where
  model : String
  tools : Option (List AvailableTool)
  deriving Repr, DecidableEq

/-! ### Adapter trait and generation control loop (adapters/traits.rs) -/

/-- Demo (traits.rs lines 14-22). -/
structure Demo (I O : Type) where
  inputs : I
  outputs : O

/-- AdapterConfig (traits.rs lines 49-62). -/
structure AdapterConfig where
  useNativeFunctionCalling : Bool
  maxRetries : Nat
  deriving Repr, DecidableEq

/-- AdapterConfig::default. -/
def AdapterConfig.default : AdapterConfig :=
  { useNativeFunctionCalling := false, maxRetries := 3 }

/-- The Adapter trait surface generate depends on: the format methods, the
parse method and the config.  Inputs and Outputs are the type parameters. -/
structure AdapterModel (I O : Type) where
  config : AdapterConfig
  formatFieldDescription : Json → String
  formatFieldStructure : Json → Json → String
  formatTaskDescription : String → String
  formatUserMessageContent : I → Json → String
  formatAssistantMessageContent : O → Json → String
  parse : String → Json → Except String O

/-- The Signature trait surface generate depends on (primatives/signature.rs).
`decodeOutputs` models serde_json::from_value::<S::Outputs>, the typed
deserializer fixed by the output type; `injectToolCalls` returns the updated
outputs instead of mutating in place. -/
structure SigModel (I O : Type) where
  promptInputSchema : Json
  promptOutputSchema : Json
  extractHistory : I → Option (List Message)
  extractTools : I → Option (List AvailableTool)
  filterSpecialFields : I → I
  injectToolCalls : O → List ToolCall → Except String O
  mergeSpecialOutputs : O → Option (List ToolCall) → Except String O
  decodeOutputs : Json → Except String O

/-- Adapter::format_demos_with_schemas: a user/assistant message pair per
demo. -/
def formatDemosWithSchemas (a : AdapterModel I O) (demos : List (Demo I O))
    (inputSchema outputSchema : Json) : List Message :=
  demos.flatMap (fun d =>
    [Message.mkUser (a.formatUserMessageContent d.inputs inputSchema),
     Message.mkAssistant (some (a.formatAssistantMessageContent d.outputs outputSchema)) none])

/-- Adapter::format_messages_with_schemas: system message, demo pairs,
current user message. -/
def formatMessagesWithSchemas (a : AdapterModel I O) (instructions : String)
    (demos : List (Demo I O)) (inputs : I) (inputSchema outputSchema : Json) : List Message :=
  [Message.mkSystem
      (a.formatFieldDescription inputSchema ++ "\n" ++
        a.formatFieldStructure inputSchema outputSchema ++ "\n" ++
        a.formatTaskDescription instructions)]
    ++ formatDemosWithSchemas a demos inputSchema outputSchema
    ++ [Message.mkUser (a.formatUserMessageContent inputs inputSchema)]

/-- The observable outcome of a generate call: its result and the config
passed to the provider on each invocation (so the invocation count is the
length of that list). -/
structure GenOutcome (O : Type) where
  result : Except String O
  configsSent : List CompletionConfig

/-- Number of provider invocations a generate call performed. -/
def GenOutcome.providerCalls (g : GenOutcome O) : Nat := g.configsSent.length

/-- The retry loop of Adapter::generate (traits.rs lines 128-184).  The
provider is a scripted stub indexed by the attempt number, also receiving
the message list and config of the real call; `fuel` counts the attempts
remaining out of max_retries. -/
def generateAttempts (a : AdapterModel I O) (sig : SigModel I O)
    (provider : Nat → List Message → CompletionConfig → Except String Message)
    (messages : List Message) (config : CompletionConfig) :
    (attempt fuel : Nat) → List CompletionConfig → GenOutcome O
  | _, 0, sent =>
    ⟨.error ("Failed after " ++ toString a.config.maxRetries ++ " attempts"), sent⟩
  | attempt, fuel + 1, sent =>
    let sent := sent ++ [config]
    match provider attempt messages config with
    | .ok (.assistant (some (.text text)) toolCalls) =>
      match a.parse text sig.promptOutputSchema with
      | .ok outputs =>
        match toolCalls with
        | some calls =>
          match sig.injectToolCalls outputs calls with
          | .ok outputs2 => ⟨sig.mergeSpecialOutputs outputs2 (some calls), sent⟩
          | .error e => ⟨.error e, sent⟩
        | none => ⟨sig.mergeSpecialOutputs outputs none, sent⟩
      | .error e =>
        if attempt < a.config.maxRetries - 1 then
          generateAttempts a sig provider messages config (attempt + 1) fuel sent
        else ⟨.error e, sent⟩
    | .ok (.assistant none (some calls)) =>
      match sig.decodeOutputs (Json.obj []) with
      | .ok outputs =>
        match sig.injectToolCalls outputs calls with
        | .ok outputs2 => ⟨sig.mergeSpecialOutputs outputs2 (some calls), sent⟩
        | .error e => ⟨.error e, sent⟩
      | .error e => ⟨.error e, sent⟩
    | .ok _ => ⟨.error "Expected assistant message with text content or tool calls", sent⟩
    | .error e =>
      if attempt < a.config.maxRetries - 1 then
        generateAttempts a sig provider messages config (attempt + 1) fuel sent
      else ⟨.error e, sent⟩

/-- Adapter::generate (traits.rs lines 80-184): extract history and tools,
filter inputs, render messages from the prompt schemas, splice history
after the system message, merge the tool config, then run the retry loop. -/
def generate (a : AdapterModel I O) (sig : SigModel I O)
    (provider : Nat → List Message → CompletionConfig → Except String Message)
    (baseConfig : CompletionConfig) (instructions : String)
    (demos : List (Demo I O)) (inputs : I) : GenOutcome O :=
  let history := sig.extractHistory inputs
  let tools := sig.extractTools inputs
  let filteredInputs := sig.filterSpecialFields inputs
  let messages :=
    formatMessagesWithSchemas a instructions demos filteredInputs
      sig.promptInputSchema sig.promptOutputSchema
  let messages :=
    match history with
    | some hist =>
      match messages with
      | m0 :: rest => m0 :: (hist ++ rest)
      | [] => hist
    | none => messages
  let config : CompletionConfig := ⟨baseConfig.model, tools.or baseConfig.tools⟩
  generateAttempts a sig provider messages config 0 a.config.maxRetries []

/-- The ChatAdapter as an AdapterModel over dynamic (serde_json::Value)
inputs and outputs; `fullOutputSchema` stands for schema_for!(S::Outputs)
and `decode` for serde_json::from_value::<S::Outputs>. -/
def chatAdapterModel (cfg : AdapterConfig) (fullOutputSchema : Json)
    (decode : Json → Except String Json) : AdapterModel Json Json :=
  { config := cfg
    formatFieldDescription := chatFormatFieldDescription
    formatFieldStructure := chatFormatFieldStructure
    formatTaskDescription := chatFormatTaskDescription
    formatUserMessageContent := chatFormatUserMessageContent fullOutputSchema
    formatAssistantMessageContent := chatFormatAssistantMessageContent
    parse := chatParse decode }

/-! ### Substring utility and concrete fixtures for the claims -/

/-- Substring test on character lists. -/
def listHasInfix (needle : List Char) : List Char → Bool
  | [] => needle.isEmpty
  | c :: rest => needle.isPrefixOf (c :: rest) || listHasInfix needle rest

/-- str::contains. -/
def strContains (hay needle : String) : Bool := listHasInfix needle.data hay.data

/-- A string-typed field schema node with a description. -/
def strFieldSchema (desc : String) : Json :=
  .obj [("type", .str "string"), ("description", .str desc)]

/-- A reflected schema document in the shape the reflector collaborator
produces and schema_parser.rs navigates: object.properties and
object.required. -/
def schemaDoc (props : List (String × Json)) (req : List String) : Json :=
  .obj [("object", .obj [("properties", .obj props), ("required", .arr (req.map Json.str))])]

/-- Prompt input schema of a question/answer example signature. -/
def qaPromptInputSchema : Json :=
  schemaDoc [("question", strFieldSchema "the question")] ["question"]

/-- Prompt output schema of the example signature (special fields
excluded). -/
def qaPromptOutputSchema : Json :=
  schemaDoc [("answer", strFieldSchema "the answer")] ["answer"]

/-- Full output schema of the example signature: the prompt fields plus a
special tool_calls field (a ToolCalls-category field of the Outputs
struct). -/
def qaFullOutputSchema : Json :=
  schemaDoc
    [("answer", strFieldSchema "the answer"),
     ("tool_calls", .obj [("$ref", .str "#/definitions/ToolCallSet")])]
    ["answer", "tool_calls"]

/-- A SigModel with the Signature trait's default hook implementations and
dynamic (identity) output decoding. -/
def defaultSigModel (promptIn promptOut : Json) : SigModel Json Json :=
  { promptInputSchema := promptIn
    promptOutputSchema := promptOut
    extractHistory := fun _ => none
    extractTools := fun _ => none
    filterSpecialFields := fun i => i
    injectToolCalls := fun o _ => .ok o
    mergeSpecialOutputs := fun o _ => .ok o
    decodeOutputs := .ok }

/-- A provider stub that fails on its first two invocations and then
returns an assistant text message. -/
def failTwiceScript (goodText : String) :
    Nat → List Message → CompletionConfig → Except String Message :=
  fun attempt _ _ =>
    if attempt < 2 then .error "provider down"
    else .ok (Message.mkAssistant (some goodText) none)

/-- A line is header-free when the header regex finds no match in its
trimmed text. -/
def isHeaderFree (l : List Char) : Bool := (findHeader (trimChars l)).isNone

/-- A field name the delimited format can round-trip: a nonempty regex
word. -/
def wordName (k : String) : Bool := !k.data.isEmpty && k.data.all isWordChar

/-- A string value the delimited format can round-trip: stable under
trimming, free of carriage returns, not itself valid JSON (else the parse
side would re-type it), and with no line containing a section header. -/
def chatSafeValue (s : String) : Bool :=
  decide (trimChars s.data = s.data) && s.data.all (fun c => c ≠ '\r') &&
    (jsonParse s).isNone && (splitNl s.data).all isHeaderFree

/-- A string value the JSON format can round-trip without touching the
escape or brace handling: free of braces, quotes, backslashes and the
escaped control characters. -/
def jsonSafeValue (s : String) : Bool :=
  s.data.all (fun c =>
    c ≠ '{' && c ≠ '}' && c ≠ '"' && c ≠ '\\' && c ≠ '\n' && c ≠ '\t' && c ≠ '\r')

/-- Entry keys in strictly increasing map order (the shape serde_json::Map
iteration produces). -/
def keysSortedStrict : List (String × Json) → Bool
  | [] => true
  | [_] => true
  | (k1, _) :: (k2, w) :: rest => keyLt k1 k2 && keysSortedStrict ((k2, w) :: rest)

/-- Decidable equality for Except results (not provided by the library). -/
instance {ε α : Type} [DecidableEq ε] [DecidableEq α] : DecidableEq (Except ε α) :=
  fun a b =>
    match a, b with
    | .ok x, .ok y =>
      if h : x = y then .isTrue (by rw [h]) else .isFalse (fun e => h (Except.ok.inj e))
    | .error x, .error y =>
      if h : x = y then .isTrue (by rw [h]) else .isFalse (fun e => h (Except.error.inj e))
    | .ok _, .error _ => .isFalse (fun e => nomatch e)
    | .error _, .ok _ => .isFalse (fun e => nomatch e)

/-! ### Theorems -/

/-- C10: for both adapter variants the result of parse depends only on the
completion text; the schema argument is ignored, and the only output
validation is the typed deserialization (the decode stage) itself. -/
theorem C10_parse_ignores_schema {α : Type} (decode : Json → Except String α)
    (completion : String) (s1 s2 : Json) :
    chatParse decode completion s1 = chatParse decode completion s2 ∧
    jsonAdapterParse decode completion s1 = jsonAdapterParse decode completion s2 :=
  ⟨rfl, rfl⟩

/-- C9 counterexample: a schema node whose `type` is the unrecognized
string "custom" normalizes to "custom" itself, not to "Unknown" as the
claim states for anything unrecognized. -/
theorem C9_counterexample :
    extractTypeName (.obj [("type", .str "custom")]) = "custom" ∧
    extractTypeName (.obj [("type", .str "custom")]) ≠ "Unknown" := by
  decide

/-- C9 amended: type-name normalization is a total deterministic function
mapping the seven primitive type strings to their fixed labels,
anyOf/oneOf/allOf to their labels, $ref to Reference, a node with none of
these keys to "Unknown"; but a node whose `type` is an unrecognized string
maps to that string itself, and an array `type` maps to the pipe-join of
its string elements. -/
theorem C9_type_name_normalization :
    extractTypeName (.obj [("type", .str "string")]) = "String" ∧
    extractTypeName (.obj [("type", .str "number")]) = "Number" ∧
    extractTypeName (.obj [("type", .str "integer")]) = "Integer" ∧
    extractTypeName (.obj [("type", .str "boolean")]) = "Boolean" ∧
    extractTypeName (.obj [("type", .str "array")]) = "Array" ∧
    extractTypeName (.obj [("type", .str "object")]) = "Object" ∧
    extractTypeName (.obj [("type", .str "null")]) = "Null" ∧
    extractTypeName (.obj [("anyOf", .arr [])]) = "AnyOf" ∧
    extractTypeName (.obj [("oneOf", .arr [])]) = "OneOf" ∧
    extractTypeName (.obj [("allOf", .arr [])]) = "AllOf" ∧
    extractTypeName (.obj [("$ref", .str "#/definitions/T")]) = "Reference" ∧
    extractTypeName (.obj [("type", .str "custom")]) = "custom" ∧
    extractTypeName (.obj [("type", .arr [.str "string", .str "null"])]) = "string | null" ∧
    (∀ j : Json, j.get? "type" = none → j.get? "anyOf" = none → j.get? "oneOf" = none →
      j.get? "allOf" = none → j.get? "$ref" = none → extractTypeName j = "Unknown") := by
  refine ⟨by decide, by decide, by decide, by decide, by decide, by decide, by decide,
    by decide, by decide, by decide, by decide, by decide, by decide, ?_⟩
  intro j hty hany hone hall href
  simp only [extractTypeName, hty, extractTypeFallback, hany, hone, hall, href,
    Option.isSome_none, Bool.false_eq_true, if_false]

/-- C9 witness: the final general conjunct applied to a node with none of
the recognized keys. -/
theorem C9_witness : extractTypeName (.obj [("format", .str "date")]) = "Unknown" :=
  C9_type_name_normalization.2.2.2.2.2.2.2.2.2.2.2.2.2
    (.obj [("format", .str "date")]) (by decide) (by decide) (by decide) (by decide) (by decide)

/-- C5: the prompt schemas of the example signature exclude its special
field tool_calls (the intersection required by the claim is empty), yet the
chat user message leaks the special field: the output-requirements
instruction is built from schema_for!(S::Outputs) — the full output schema —
so `[[ ## tool_calls ## ]]` is named in the rendered user message text. -/
theorem C5_special_field_leaks_into_user_message :
    extractFieldNames qaPromptInputSchema = ["question"] ∧
    extractFieldNames qaPromptOutputSchema = ["answer"] ∧
    ("tool_calls" ∉ extractFieldNames qaPromptInputSchema) ∧
    ("tool_calls" ∉ extractFieldNames qaPromptOutputSchema) ∧
    extractFieldNames qaFullOutputSchema = ["answer", "tool_calls"] ∧
    strContains
      (chatFormatUserMessageContent qaFullOutputSchema
        (.obj [("question", .str "What?")]) qaPromptInputSchema) "tool_calls" = true := by
  decide

/-- C4: with a provider stub failing on its first two invocations, generate
with max_retries = 3 returns the parsed success result after exactly 3
invocations, and with max_retries = 2 terminates with the propagated
provider error after exactly 2 invocations. -/
theorem C4_retry_budget :
    (generate (chatAdapterModel { useNativeFunctionCalling := false, maxRetries := 3 }
          qaPromptOutputSchema .ok)
        (defaultSigModel qaPromptInputSchema qaPromptOutputSchema)
        (failTwiceScript "[[ ## answer ## ]]\nHello") { model := "m", tools := none }
        "inst" [] (.obj [("question", .str "What?")])).result
      = .ok (.obj [("answer", .str "Hello")]) ∧
    (generate (chatAdapterModel { useNativeFunctionCalling := false, maxRetries := 3 }
          qaPromptOutputSchema .ok)
        (defaultSigModel qaPromptInputSchema qaPromptOutputSchema)
        (failTwiceScript "[[ ## answer ## ]]\nHello") { model := "m", tools := none }
        "inst" [] (.obj [("question", .str "What?")])).providerCalls = 3 ∧
    (generate (chatAdapterModel { useNativeFunctionCalling := false, maxRetries := 2 }
          qaPromptOutputSchema .ok)
        (defaultSigModel qaPromptInputSchema qaPromptOutputSchema)
        (failTwiceScript "[[ ## answer ## ]]\nHello") { model := "m", tools := none }
        "inst" [] (.obj [("question", .str "What?")])).result
      = .error "provider down" ∧
    (generate (chatAdapterModel { useNativeFunctionCalling := false, maxRetries := 2 }
          qaPromptOutputSchema .ok)
        (defaultSigModel qaPromptInputSchema qaPromptOutputSchema)
        (failTwiceScript "[[ ## answer ## ]]\nHello") { model := "m", tools := none }
        "inst" [] (.obj [("question", .str "What?")])).providerCalls = 2 := by
  decide

/-- C7: for every combination of extracted tools and caller-supplied base
tools, the config the provider is invoked with carries exactly
extracted.or(base). -/
theorem C7_tools_merge (ext base : Option (List AvailableTool)) (model : String)
    (instructions : String) (demos : List (Demo Json Json)) (inputs : Json) (tc : ToolCall) :
    (generate (chatAdapterModel AdapterConfig.default qaFullOutputSchema .ok)
        { defaultSigModel qaPromptInputSchema qaPromptOutputSchema with
            extractTools := fun _ => ext }
        (fun _ _ _ => .ok (.assistant none (some [tc])))
        { model := model, tools := base } instructions demos inputs).configsSent
      = [{ model := model, tools := ext.or base }] :=
  rfl

/-- The retry loop on a provider that always answers with a tool-only
assistant message terminates on its first attempt with the
decode-inject-merge composition, never consulting the adapter parse. -/
theorem generateAttempts_tool_only (a : AdapterModel I O) (sig : SigModel I O)
    (tc : ToolCall) (messages : List Message) (config : CompletionConfig)
    (attempt n : Nat) (sent : List CompletionConfig) :
    generateAttempts a sig (fun _ _ _ => .ok (.assistant none (some [tc])))
        messages config attempt (n + 1) sent
      = (match sig.decodeOutputs (.obj []) with
         | .ok outputs =>
           match sig.injectToolCalls outputs [tc] with
           | .ok outputs2 => ⟨sig.mergeSpecialOutputs outputs2 (some [tc]), sent ++ [config]⟩
           | .error e => ⟨.error e, sent ++ [config]⟩
         | .error e => ⟨.error e, sent ++ [config]⟩) := rfl

/-- C6: when the provider returns an assistant message with no content and
tool_calls = [tc], generate returns the output built by deserializing the
empty JSON object into Outputs, injecting tc, and merging — for every
adapter parse function, so parse is never consulted on this path — after a
single provider invocation. -/
theorem C6_tool_only_response (sig : SigModel Json Json)
    (parseFn : String → Json → Except String Json)
    (cfg : AdapterConfig) (hcfg : 1 ≤ cfg.maxRetries)
    (tc : ToolCall) (baseConfig : CompletionConfig) (instructions : String)
    (demos : List (Demo Json Json)) (inputs : Json) :
    generate { chatAdapterModel cfg qaFullOutputSchema .ok with parse := parseFn } sig
        (fun _ _ _ => .ok (.assistant none (some [tc])))
        baseConfig instructions demos inputs
      = (match sig.decodeOutputs (.obj []) with
         | .ok o =>
           match sig.injectToolCalls o [tc] with
           | .ok o2 =>
             ⟨sig.mergeSpecialOutputs o2 (some [tc]),
              [⟨baseConfig.model, (sig.extractTools inputs).or baseConfig.tools⟩]⟩
           | .error e =>
             ⟨.error e, [⟨baseConfig.model, (sig.extractTools inputs).or baseConfig.tools⟩]⟩
         | .error e =>
           ⟨.error e, [⟨baseConfig.model, (sig.extractTools inputs).or baseConfig.tools⟩]⟩) := by
  obtain ⟨n, hn⟩ := Nat.exists_eq_add_of_le hcfg
  have hm : ({ chatAdapterModel cfg qaFullOutputSchema .ok with
      parse := parseFn } : AdapterModel Json Json).config.maxRetries = n + 1 := by
    simpa [Nat.add_comm] using hn
  show generateAttempts _ _ _ _ _ 0
      ({ chatAdapterModel cfg qaFullOutputSchema .ok with
          parse := parseFn } : AdapterModel Json Json).config.maxRetries [] = _
  rw [hm, generateAttempts_tool_only]
  simp only [List.nil_append]
  cases sig.decodeOutputs (Json.obj []) with
  | error e => rfl
  | ok o =>
    dsimp only
    cases sig.injectToolCalls o [tc] with
    | error e => rfl
    | ok o2 => rfl

/-- C6 witness: the concrete tool-only run with a parse stub that would
fail if consulted returns the empty-shell output after one invocation. -/
theorem C6_witness :
    (generate { chatAdapterModel AdapterConfig.default qaFullOutputSchema .ok with
          parse := fun _ _ => .error "parse must not be called" }
        (defaultSigModel qaPromptInputSchema qaPromptOutputSchema)
        (fun _ _ _ => .ok (.assistant none (some [⟨"id1", "tool1", .null⟩])))
        { model := "m", tools := none } "inst" [] (.obj [])).result = .ok (.obj []) ∧
    (generate { chatAdapterModel AdapterConfig.default qaFullOutputSchema .ok with
          parse := fun _ _ => .error "parse must not be called" }
        (defaultSigModel qaPromptInputSchema qaPromptOutputSchema)
        (fun _ _ _ => .ok (.assistant none (some [⟨"id1", "tool1", .null⟩])))
        { model := "m", tools := none } "inst" [] (.obj [])).providerCalls = 1 := by
  have h := C6_tool_only_response
    (defaultSigModel qaPromptInputSchema qaPromptOutputSchema)
    (fun _ _ => .error "parse must not be called") AdapterConfig.default (by decide)
    ⟨"id1", "tool1", .null⟩ { model := "m", tools := none } "inst" [] (.obj [])
  exact ⟨(congrArg GenOutcome.result h).trans (by decide),
    (congrArg GenOutcome.providerCalls h).trans (by decide)⟩

/-- Any span the innermost-pair matcher returns is an opening brace, a
brace-free middle, and a closing brace. -/
theorem braceSpanAt_shape : ∀ (cs t : List Char), braceSpanAt cs = some t →
    ∃ mid, t = '{' :: (mid ++ ['}']) ∧ ∀ c ∈ mid, c ≠ '{' ∧ c ≠ '}'
  | [], t => by simp [braceSpanAt]
  | c :: rest, t => by
    intro h
    unfold braceSpanAt at h
    split at h
    next rx heq =>
      dsimp only [] at h
      split at h
      next r2 hdrop =>
        refine ⟨rx.takeWhile (fun c => !(c = '{' || c = '}')),
          (Option.some.inj h).symm, ?_⟩
        intro d hd
        have hp := List.mem_takeWhile_imp hd
        constructor
        · intro he
          subst he
          simp at hp
        · intro he
          subst he
          simp at hp
      next hne => exact absurd h (by simp)
    next hne => exact absurd h (by simp)

/-- Any span JSON_PATTERN.find returns is an innermost brace pair. -/
theorem findJsonSpan_shape : ∀ (cs t : List Char), findJsonSpan cs = some t →
    ∃ mid, t = '{' :: (mid ++ ['}']) ∧ ∀ c ∈ mid, c ≠ '{' ∧ c ≠ '}'
  | [], t => by simp [findJsonSpan]
  | c :: rest, t => by
    simp only [findJsonSpan]
    cases hb : braceSpanAt (c :: rest) with
    | none => exact fun h => findJsonSpan_shape rest t h
    | some m =>
      intro h
      have hmt : m = t := Option.some.inj h
      subst hmt
      exact braceSpanAt_shape _ m hb

/-- C3 (code bug): the spec requires the first balanced brace span,
nested braces included, but JSON_PATTERN's (?R) recursion is not
supported by the regex crate: with regex >= 1.8 the pattern degenerates
to the innermost-pair match (with regex < 1.8 it does not compile and
the lazy_static unwrap panics at first use).  On the claim's nested
example the adapter therefore extracts the inner object, not the outer
balanced span; the whole-text fallback and the malformed-JSON error
behave as claimed. -/
theorem C3_innermost_extraction :
    (findJsonSpan ("noise \x7b\"a\": \x7b\"b\": 1\x7d\x7d trailing".data)
      = some ("\x7b\"b\": 1\x7d".data)) ∧
    (jsonAdapterParse .ok "noise \x7b\"a\": \x7b\"b\": 1\x7d\x7d trailing" qaPromptOutputSchema
      = .ok (.obj [("b", .num 1)])) ∧
    (jsonAdapterParse .ok "noise \x7b\"a\": \x7b\"b\": 1\x7d\x7d trailing" qaPromptOutputSchema
      ≠ .ok (.obj [("a", .obj [("b", .num 1)])])) ∧
    (∀ (t : List Char),
      findJsonSpan ("noise \x7b\"a\": \x7b\"b\": 1\x7d\x7d trailing".data) = some t →
      ∃ mid, t = '{' :: (mid ++ ['}']) ∧ ∀ c ∈ mid, c ≠ '{' ∧ c ≠ '}') ∧
    (∀ (α : Type) (decode : Json → Except String α) (completion : String) (schema : Json),
      findJsonSpan completion.data = none →
      jsonAdapterParse decode completion schema
        = (match jsonParseChars completion.data with
           | some j => decode j
           | none => .error "Failed to parse JSON response")) ∧
    (jsonAdapterParse .ok "no json here" qaPromptOutputSchema
      = .error "Failed to parse JSON response") := by
  refine ⟨by decide, by decide, by decide, ?_, ?_, by decide⟩
  · intro t ht
    exact findJsonSpan_shape _ t ht
  · intro α decode completion schema hnone
    show (match jsonParseChars ((findJsonSpan completion.data).getD completion.data) with
          | some j => decode j
          | none => .error "Failed to parse JSON response") = _
    rw [hnone]
    rfl

/-- C3 witness: the span-shape lemma and the whole-text fallback
instantiated at concrete completions. -/
theorem C3_witness :
    (∃ mid, ("\x7b\"b\": 1\x7d".data) = '{' :: (mid ++ ['}']) ∧
      ∀ c ∈ mid, c ≠ '{' ∧ c ≠ '}') ∧
    jsonAdapterParse .ok "42" qaPromptOutputSchema = .ok (.num 42) := by
  constructor
  · exact C3_innermost_extraction.2.2.2.1 _ (by decide)
  · have h := C3_innermost_extraction.2.2.2.2.1 Json .ok "42" qaPromptOutputSchema (by decide)
    exact h.trans (by decide)

/-- Character-list order trichotomy: two lists neither of which is below
the other are equal. -/
theorem charsLt_trichotomy : ∀ (a b : List Char),
    charsLt a b = false → charsLt b a = false → a = b
  | [], [] => fun _ _ => rfl
  | [], _ :: _ => by simp [charsLt]
  | _ :: _, [] => by simp [charsLt]
  | a :: as, b :: bs => by
    intro h1 h2
    simp only [charsLt] at h1 h2
    by_cases hab : a.toNat < b.toNat
    · simp [hab] at h1
    · by_cases hba : b.toNat < a.toNat
      · simp [hba] at h2
      · have hev : a.toNat = b.toNat := by omega
        have hc : a = b := Char.eq_of_val_eq (UInt32.toNat.inj hev)
        rw [if_neg hab, if_neg (by omega : ¬b.toNat < a.toNat)] at h1
        rw [if_neg hba, if_neg (by omega : ¬a.toNat < b.toNat)] at h2
        rw [hc, charsLt_trichotomy as bs h1 h2]

/-- Character-list order transitivity. -/
theorem charsLt_trans : ∀ (a b c : List Char),
    charsLt a b = true → charsLt b c = true → charsLt a c = true
  | _, [], [] => by simp [charsLt]
  | _, _ :: _, [] => by simp [charsLt]
  | [], [], _ :: _ => by simp [charsLt]
  | [], _ :: _, _ :: _ => by simp [charsLt]
  | _ :: _, [], _ :: _ => by simp [charsLt]
  | a :: as, b :: bs, c :: cs => by
    intro h1 h2
    simp only [charsLt] at h1 h2 ⊢
    by_cases hab : a.toNat < b.toNat
    · by_cases hbc : b.toNat < c.toNat
      · rw [if_pos (by omega : a.toNat < c.toNat)]
      · rw [if_neg hbc] at h2
        by_cases hcb : c.toNat < b.toNat
        · simp [hcb] at h2
        · have : b.toNat = c.toNat := by omega
          rw [if_pos (by omega : a.toNat < c.toNat)]
    · rw [if_neg hab] at h1
      by_cases hba : b.toNat < a.toNat
      · simp [hba] at h1
      · have hev : a.toNat = b.toNat := by omega
        by_cases hbc : b.toNat < c.toNat
        · rw [if_pos (by omega : a.toNat < c.toNat)]
        · rw [if_neg hbc] at h2
          by_cases hcb : c.toNat < b.toNat
          · simp [hcb] at h2
          · rw [if_neg hba] at h1
            rw [if_neg hcb] at h2
            rw [if_neg (by omega : ¬a.toNat < c.toNat),
              if_neg (by omega : ¬c.toNat < a.toNat)]
            exact charsLt_trans as bs cs h1 h2

/-- Key order trichotomy on strings. -/
theorem keyLt_trichotomy (a b : String) (h1 : keyLt a b = false) (h2 : keyLt b a = false) :
    a = b := by
  cases a with
  | mk da =>
    cases b with
    | mk db => exact congrArg String.mk (charsLt_trichotomy da db h1 h2)

/-- Key order transitivity on strings. -/
theorem keyLt_trans (a b c : String) (h1 : keyLt a b = true) (h2 : keyLt b c = true) :
    keyLt a c = true :=
  charsLt_trans a.data b.data c.data h1 h2

/-- Every entry of a map insert either carries the inserted key or was
already present. -/
theorem mapInsert_mem_key : ∀ (k : String) (v : Json) (m : List (String × Json))
    (x : String × Json), x ∈ mapInsert k v m → x.1 = k ∨ x ∈ m
  | k, v, [], x => by
    intro hx
    simp only [mapInsert, List.mem_singleton] at hx
    exact Or.inl (by rw [hx])
  | k, v, (k', v') :: rest, x => by
    intro hx
    simp only [mapInsert] at hx
    by_cases he : k = k'
    · rw [if_pos he] at hx
      rcases List.mem_cons.mp hx with h | h
      · exact Or.inl (by rw [h])
      · exact Or.inr (List.mem_cons_of_mem _ h)
    · rw [if_neg he] at hx
      by_cases hl : keyLt k k'
      · rw [if_pos hl] at hx
        rcases List.mem_cons.mp hx with h | h
        · exact Or.inl (by rw [h])
        · exact Or.inr h
      · rw [if_neg hl] at hx
        rcases List.mem_cons.mp hx with h | h
        · exact Or.inr (List.mem_cons.mpr (Or.inl h))
        · rcases mapInsert_mem_key k v rest x h with h' | h'
          · exact Or.inl h'
          · exact Or.inr (List.mem_cons_of_mem _ h')

/-- Map insertion preserves strictly-increasing key order. -/
theorem mapInsert_pairwise : ∀ (k : String) (v : Json) (m : List (String × Json)),
    m.Pairwise (fun a b => keyLt a.1 b.1 = true) →
    (mapInsert k v m).Pairwise (fun a b => keyLt a.1 b.1 = true)
  | k, v, [], _ => by simp [mapInsert]
  | k, v, (k', v') :: rest, hm => by
    obtain ⟨hall, hrest⟩ := List.pairwise_cons.mp hm
    simp only [mapInsert]
    by_cases he : k = k'
    · rw [if_pos he]
      exact List.pairwise_cons.mpr ⟨fun y hy => by rw [he]; exact hall y hy, hrest⟩
    · rw [if_neg he]
      by_cases hl : keyLt k k'
      · rw [if_pos hl]
        refine List.pairwise_cons.mpr ⟨?_, hm⟩
        intro y hy
        rcases List.mem_cons.mp hy with h | h
        · rw [h]; exact hl
        · exact keyLt_trans _ _ _ hl (hall y h)
      · rw [if_neg hl]
        have hgt : keyLt k' k = true := by
          by_cases hx : keyLt k' k
          · exact hx
          · exact absurd (keyLt_trichotomy k k'
              (Bool.not_eq_true _ ▸ hl) (Bool.not_eq_true _ ▸ hx)) he
        refine List.pairwise_cons.mpr ⟨?_, mapInsert_pairwise k v rest hrest⟩
        intro y hy
        rcases mapInsert_mem_key k v rest y hy with h | h
        · rw [h]; exact hgt
        · exact hall y h

/-- Collecting entries into a serde_json::Map yields strictly-increasing
key order. -/
theorem sortEntries_pairwise (l : List (String × Json)) :
    (sortEntries l).Pairwise (fun a b => keyLt a.1 b.1 = true) := by
  suffices h : ∀ (l m : List (String × Json)),
      m.Pairwise (fun a b => keyLt a.1 b.1 = true) →
      (l.foldl (fun m kv => mapInsert kv.1 kv.2 m) m).Pairwise
        (fun a b => keyLt a.1 b.1 = true) by
    exact h l [] (by simp)
  intro l
  induction l with
  | nil => intro m hm; simpa using hm
  | cons kv rest ih =>
    intro m hm
    exact ih (mapInsert kv.1 kv.2 m) (mapInsert_pairwise kv.1 kv.2 m hm)

/-- Joining a list whose last element is x produces a string ending in x. -/
theorem joinSep_ends_with : ∀ (sep : String) (ps : List String) (x : String),
    ∃ pre : String, joinSep sep (ps ++ [x]) = pre ++ x
  | sep, [], x => ⟨"", rfl⟩
  | sep, [a], x => ⟨a ++ sep, rfl⟩
  | sep, a :: b :: ps, x => by
    obtain ⟨pre, hpre⟩ := joinSep_ends_with sep (b :: ps) x
    refine ⟨a ++ sep ++ pre, ?_⟩
    show a ++ sep ++ joinSep sep ((b :: ps) ++ [x]) = a ++ sep ++ pre ++ x
    rw [hpre]
    simp [String.append_assoc]

/-- Joining a list whose last element decomposes as p2 ++ c produces a
string ending in c. -/
theorem joinSep_ends_with_suffix (sep : String) (ps : List String) (x p2 c : String)
    (hx : x = p2 ++ c) : ∃ pre, joinSep sep (ps ++ [x]) = pre ++ c := by
  obtain ⟨pre1, h1⟩ := joinSep_ends_with sep ps x
  exact ⟨pre1 ++ p2, by rw [h1, hx, String.append_assoc]⟩

/-- splitNl never returns the empty list. -/
theorem splitNl_ne_nil : ∀ (a : List Char), splitNl a ≠ []
  | [] => by simp [splitNl]
  | c :: a => by
    simp only [splitNl]
    split
    · simp
    · cases h : splitNl a <;> simp

/-- splitNl on a line feed. -/
theorem splitNl_cons_nl (rest : List Char) : splitNl ('\n' :: rest) = [] :: splitNl rest := by
  simp [splitNl]

/-- splitNl on any other character. -/
theorem splitNl_cons_other (c : Char) (rest : List Char) (hc : c ≠ '\n') :
    splitNl (c :: rest)
      = (match splitNl rest with
         | l :: ls => (c :: l) :: ls
         | [] => [[c]]) := by
  simp [splitNl, hc]

/-- splitNl distributes over a newline junction. -/
theorem splitNl_append_nl : ∀ (a b : List Char),
    splitNl (a ++ '\n' :: b) = splitNl a ++ splitNl b
  | [], b => by
    show splitNl ('\n' :: b) = splitNl [] ++ splitNl b
    rw [splitNl_cons_nl]
    simp [splitNl]
  | c :: a, b => by
    show splitNl (c :: (a ++ '\n' :: b)) = splitNl (c :: a) ++ splitNl b
    by_cases hc : c = '\n'
    · subst hc
      rw [splitNl_cons_nl, splitNl_cons_nl, splitNl_append_nl a b]
      simp
    · rw [splitNl_cons_other c _ hc, splitNl_cons_other c _ hc, splitNl_append_nl a b]
      cases h : splitNl a with
      | nil => exact absurd h (splitNl_ne_nil a)
      | cons l ls => simp

/-- str::lines distributes over a newline junction when the trailing text
is handled on its own. -/
theorem rustLines_append_nl (a b : List Char) :
    rustLines (a ++ '\n' :: b) = (splitNl a).map stripCr ++ rustLines b := by
  simp only [rustLines, splitNl_append_nl]
  have hnn := splitNl_ne_nil b
  rw [List.getLast?_append_of_ne_nil _ hnn]
  by_cases hl : (splitNl b).getLast? = some []
  · rw [if_pos hl, if_pos hl, List.dropLast_append_of_ne_nil _ hnn, List.map_append]
  · rw [if_neg hl, if_neg hl, List.map_append]

/-- A section-splitting step never empties the section list. -/
theorem chatLineStep_ne_nil (S : List (Option String × List (List Char)))
    (hS : S ≠ []) (l : List Char) : chatLineStep S l ≠ [] := by
  unfold chatLineStep
  cases hf : findHeader (trimChars l) with
  | some p => simp
  | none =>
    cases hg : S.getLast? with
    | none => exact absurd (List.getLast?_eq_none_iff.mp hg) hS
    | some kb => cases kb with | mk k buf => simp

/-- A section-splitting step on sections stacked before a nonempty tail
only touches the tail. -/
theorem chatLineStep_append (S S2 : List (Option String × List (List Char)))
    (hS2 : S2 ≠ []) (l : List Char) :
    chatLineStep (S ++ S2) l = S ++ chatLineStep S2 l := by
  unfold chatLineStep
  cases hf : findHeader (trimChars l) with
  | some p => simp
  | none =>
    rw [List.getLast?_append_of_ne_nil _ hS2, List.dropLast_append_of_ne_nil _ hS2]
    cases hg : S2.getLast? with
    | none => exact absurd (List.getLast?_eq_none_iff.mp hg) hS2
    | some kb => cases kb with | mk k buf => simp

/-- The section-splitting fold on sections stacked before a nonempty tail
only touches the tail. -/
theorem foldl_sections_append : ∀ (ls : List (List Char))
    (S S2 : List (Option String × List (List Char))), S2 ≠ [] →
    List.foldl chatLineStep (S ++ S2) ls = S ++ List.foldl chatLineStep S2 ls
  | [], S, S2, _ => by simp
  | l :: ls, S, S2, hS2 => by
    simp only [List.foldl_cons]
    rw [chatLineStep_append S S2 hS2 l]
    exact foldl_sections_append ls S (chatLineStep S2 l) (chatLineStep_ne_nil S2 hS2 l)

/-- Feeding only header-free lines into the fold accumulates them in the
open section. -/
theorem foldl_headerFree : ∀ (ls : List (List Char)),
    (∀ l ∈ ls, isHeaderFree l = true) →
    ∀ (k : Option String) (buf : List (List Char)),
    List.foldl chatLineStep [(k, buf)] ls = [(k, buf ++ ls)]
  | [], _, k, buf => by simp
  | l :: ls, hall, k, buf => by
    have hl : isHeaderFree l = true := hall l (List.mem_cons_self l ls)
    have hrest : ∀ x ∈ ls, isHeaderFree x = true :=
      fun x hx => hall x (List.mem_cons_of_mem l hx)
    simp only [List.foldl_cons]
    have hstep : chatLineStep [(k, buf)] l = [(k, buf ++ [l])] := by
      unfold chatLineStep
      rw [Option.isNone_iff_eq_none.mp hl]
      simp
    rw [hstep, foldl_headerFree ls hrest k (buf ++ [l])]
    simp

/-- The keyed tail of the section fold does not depend on the initial
unkeyed buffer. -/
theorem foldl_unkeyed_head : ∀ (ls : List (List Char)) (buf buf' : List (List Char)),
    ∃ b1 b2 T, List.foldl chatLineStep [(none, buf)] ls = (none, b1) :: T ∧
      List.foldl chatLineStep [(none, buf')] ls = (none, b2) :: T
  | [], buf, buf' => ⟨buf, buf', [], rfl, rfl⟩
  | l :: ls, buf, buf' => by
    simp only [List.foldl_cons]
    cases hf : findHeader (trimChars l) with
    | some p =>
      have hstep : ∀ b : List (List Char), chatLineStep [(none, b)] l
          = [(none, b)] ++ [(some p.1,
              if (trimChars (l.drop p.2)).isEmpty then [] else [trimChars (l.drop p.2)])] := by
        intro b
        unfold chatLineStep
        rw [hf]
      rw [hstep buf, hstep buf',
        foldl_sections_append ls [(none, buf)] _ (by simp),
        foldl_sections_append ls [(none, buf')] _ (by simp)]
      exact ⟨buf, buf', _, rfl, rfl⟩
    | none =>
      have hstep : ∀ b : List (List Char), chatLineStep [(none, b)] l = [(none, b ++ [l])] := by
        intro b
        unfold chatLineStep
        rw [hf]
        simp
      rw [hstep buf, hstep buf']
      exact foldl_unkeyed_head ls (buf ++ [l]) (buf' ++ [l])

/-- Every key of a collected map was a key of the entry list. -/
theorem sortEntries_mem_key (l : List (String × Json)) (x : String × Json)
    (hx : x ∈ sortEntries l) : x.1 ∈ l.map (·.1) := by
  suffices h : ∀ (l m : List (String × Json)) (x : String × Json),
      x ∈ l.foldl (fun m kv => mapInsert kv.1 kv.2 m) m →
      x.1 ∈ l.map (·.1) ∨ x ∈ m by
    rcases h l [] x hx with hh | hh
    · exact hh
    · simp at hh
  intro l
  induction l with
  | nil => intro m x hx; exact Or.inr (by simpa using hx)
  | cons kv rest ih =>
    intro m x hx
    simp only [List.foldl_cons] at hx
    rcases ih (mapInsert kv.1 kv.2 m) x hx with hh | hh
    · exact Or.inl (List.mem_cons_of_mem _ hh)
    · rcases mapInsert_mem_key kv.1 kv.2 m x hh with hk | hk
      · exact Or.inl (by simp [hk])
      · exact Or.inr hk

/-- Lookup misses when no entry carries the key. -/
theorem lookup_eq_none_of_keys (k : String) : ∀ (l : List (String × Json)),
    (∀ x ∈ l, x.1 ≠ k) → List.lookup k l = none
  | [], _ => rfl
  | (k', v') :: rest, hall => by
    have hne : k' ≠ k := hall (k', v') (List.mem_cons_self _ _)
    simp only [List.lookup]
    have hbe : (k == k') = false := beq_eq_false_iff_ne.mpr (fun he => hne he.symm)
    rw [hbe]
    exact lookup_eq_none_of_keys k rest (fun x hx => hall x (List.mem_cons_of_mem _ hx))

/-- The object a ChatAdapter parse assembles never carries the `completed`
key. -/
theorem chatAssemble_completed_none (completion : String) :
    (chatAssemble completion).get? "completed" = none := by
  unfold chatAssemble Json.get?
  apply lookup_eq_none_of_keys
  intro x hx
  have h1 := sortEntries_mem_key _ x hx
  obtain ⟨y, hy, hyx⟩ := List.mem_map.mp h1
  have h2 := sortEntries_mem_key _ y hy
  obtain ⟨z, hz, hzy⟩ := List.mem_map.mp h2
  obtain ⟨w, hw, hwz⟩ := List.mem_map.mp hz
  have hwc : w.1 ≠ "completed" := by
    have := (List.mem_filter.mp hw).2
    simpa using this
  rw [← hyx, ← hzy, ← hwz]
  simpa using hwc

/-- Header-free text before the first header line only feeds the unkeyed
initial section, which the parse discards. -/
theorem chatAssemble_discard (pre rest : String)
    (hpre : ∀ l ∈ (splitNl pre.data).map stripCr, isHeaderFree l = true) :
    chatAssemble (pre ++ "\n" ++ rest) = chatAssemble rest := by
  unfold chatAssemble keyedSections chatSections
  have hdata : (pre ++ "\n" ++ rest).data = pre.data ++ '\n' :: rest.data := by
    rw [String.data_append, String.data_append]
    simp
  rw [hdata, rustLines_append_nl, List.foldl_append,
    foldl_headerFree _ hpre none []]
  obtain ⟨b1, b2, T, h1, h2⟩ :=
    foldl_unkeyed_head (rustLines rest.data) ([] ++ (splitNl pre.data).map stripCr) []
  rw [h1, h2]
  simp [List.filterMap_cons]

/-- C2 counterexample: a header line with leading whitespace: the source
slices the untrimmed line at the match offset computed in the trimmed
line, so the section content keeps trailing bytes of the header itself —
not the trailing text after the header as the claim states. -/
theorem C2_counterexample :
    chatAssemble "  [[ ## answer ## ]] Hello" = .obj [("answer", .str "]] Hello")] ∧
    chatAssemble "  [[ ## answer ## ]] Hello" ≠ .obj [("answer", .str "Hello")] := by
  decide

/-- C2 amended: the delimited parse opens a section per header line keyed
by the captured word, takes the rest of the untrimmed line from the match
end offset within the trimmed line (equal to the trailing text when the
line has no leading whitespace), appends other lines to the open section,
discards pre-header lines, keeps the later occurrence on duplicate
headers, drops the completed section, parses each section text as JSON
with raw-string fallback, and hands the assembled object to the typed
deserializer. -/
theorem C2_delimited_parse :
    chatAssemble "[[ ## answer ## ]]\nHello" = .obj [("answer", .str "Hello")] ∧
    chatAssemble "[[ ## a ## ]] X\nY" = .obj [("a", .str "X\nY")] ∧
    chatAssemble "[[ ## answer ## ]]\nA\n[[ ## answer ## ]]\nB"
      = .obj [("answer", .str "B")] ∧
    chatAssemble "[[ ## n ## ]]\n42" = .obj [("n", .num 42)] ∧
    (∀ (pre rest : String),
      (∀ l ∈ (splitNl pre.data).map stripCr, isHeaderFree l = true) →
      chatAssemble (pre ++ "\n" ++ rest) = chatAssemble rest) ∧
    (∀ completion : String, (chatAssemble completion).get? "completed" = none) ∧
    (∀ (α : Type) (decode : Json → Except String α) (completion : String) (schema : Json),
      chatParse decode completion schema = decode (chatAssemble completion)) ∧
    chatAssemble "  [[ ## answer ## ]] Hello" = .obj [("answer", .str "]] Hello")] := by
  refine ⟨by decide, by decide, by decide, by decide, ?_, ?_, ?_, by decide⟩
  · exact chatAssemble_discard
  · exact chatAssemble_completed_none
  · intro α decode completion schema
    rfl

/-- C2 witness: the pre-header discard conjunct applied to a concrete
junk prefix. -/
theorem C2_witness :
    chatAssemble ("junk" ++ "\n" ++ "[[ ## a ## ]]\nX") = chatAssemble "[[ ## a ## ]]\nX" :=
  C2_delimited_parse.2.2.2.2.1 "junk" "[[ ## a ## ]]\nX" (by decide)

/-- splitNl of a newline-free text is the single segment. -/
theorem splitNl_no_nl : ∀ (a : List Char), '\n' ∉ a → splitNl a = [a]
  | [], _ => rfl
  | c :: a, h => by
    have hc : c ≠ '\n' := fun he => h (he ▸ List.mem_cons_self c a)
    rw [splitNl_cons_other c a hc, splitNl_no_nl a (fun hm => h (List.mem_cons_of_mem c hm))]

/-- Characters of splitNl segments come from the original text. -/
theorem splitNl_mem_sub : ∀ (a : List Char) (l : List Char), l ∈ splitNl a →
    ∀ c ∈ l, c ∈ a
  | [], l, hl => by
    simp [splitNl] at hl
    simp [hl]
  | x :: a, l, hl => by
    intro c hc
    by_cases hx : x = '\n'
    · subst hx
      rw [splitNl_cons_nl] at hl
      rcases List.mem_cons.mp hl with h | h
      · subst h; cases hc
      · exact List.mem_cons_of_mem _ (splitNl_mem_sub a l h c hc)
    · rw [splitNl_cons_other x a hx] at hl
      cases hsp : splitNl a with
      | nil => exact absurd hsp (splitNl_ne_nil a)
      | cons s ss =>
        rw [hsp] at hl
        simp only at hl
        rcases List.mem_cons.mp hl with h | h
        · subst h
          rcases List.mem_cons.mp hc with h' | h'
          · simp [h']
          · exact List.mem_cons_of_mem _
              (splitNl_mem_sub a s (hsp ▸ List.mem_cons_self s ss) c h')
        · exact List.mem_cons_of_mem _
            (splitNl_mem_sub a l (hsp ▸ List.mem_cons_of_mem s h) c hc)

/-- stripCr is the identity on carriage-return-free lines. -/
theorem stripCr_no_cr (l : List Char) (h : '\r' ∉ l) : stripCr l = l := by
  unfold stripCr
  cases hg : l.getLast? with
  | none => rfl
  | some c =>
    have hc : c ∈ l := List.mem_of_mem_getLast? hg
    have hcr : ¬(c = '\r') := fun he => h (he ▸ hc)
    simp only [if_neg hcr]

/-- joinNl is a left inverse of splitNl. -/
theorem joinNl_splitNl : ∀ (a : List Char), joinNl (splitNl a) = a
  | [] => rfl
  | c :: a => by
    by_cases hc : c = '\n'
    · subst hc
      rw [splitNl_cons_nl]
      cases hsp : splitNl a with
      | nil => exact absurd hsp (splitNl_ne_nil a)
      | cons s ss =>
        have := joinNl_splitNl a
        rw [hsp] at this
        show ('\n' :: joinNl (s :: ss) : List Char) = '\n' :: a
        rw [this]
    · rw [splitNl_cons_other c a hc]
      cases hsp : splitNl a with
      | nil => exact absurd hsp (splitNl_ne_nil a)
      | cons s ss =>
        have := joinNl_splitNl a
        rw [hsp] at this
        cases ss with
        | nil =>
          show (c :: s : List Char) = c :: a
          rw [show joinNl [s] = s from rfl] at this
          rw [this]
        | cons s2 ss2 =>
          show (c :: s) ++ '\n' :: joinNl (s2 :: ss2) = c :: a
          have hj : joinNl (s :: s2 :: ss2) = s ++ '\n' :: joinNl (s2 :: ss2) := rfl
          rw [hj] at this
          simpa using this

/-- Joining with one extra trailing segment appends a newline and that
segment. -/
theorem joinNl_append_one : ∀ (A : List (List Char)) (b : List Char), A ≠ [] →
    joinNl (A ++ [b]) = joinNl A ++ '\n' :: b
  | [], _, h => absurd rfl h
  | [l], b, _ => rfl
  | l :: l2 :: A, b, _ => by
    show l ++ '\n' :: joinNl ((l2 :: A) ++ [b]) = (l ++ '\n' :: joinNl (l2 :: A)) ++ '\n' :: b
    rw [joinNl_append_one (l2 :: A) b (by simp)]
    simp

/-- Trimming ignores a trailing newline. -/
theorem trimChars_append_nl (s : List Char) : trimChars (s ++ ['\n']) = trimChars s := by
  unfold trimChars
  rw [List.dropWhile_append]
  by_cases h : (s.dropWhile isWsChar).isEmpty
  · rw [if_pos h, List.isEmpty_iff.mp h]
    rfl
  · rw [if_neg (by simp [h]), List.reverse_append]
    show (List.dropWhile isWsChar
      ('\n' :: (s.dropWhile isWsChar).reverse)).reverse = _
    rw [List.dropWhile_cons_of_pos (by decide)]

/-- The character-list order is irreflexive. -/
theorem charsLt_irrefl : ∀ (a : List Char), charsLt a a = false
  | [] => rfl
  | c :: a => by
    simp only [charsLt]
    rw [if_neg (by omega), if_neg (by omega)]
    exact charsLt_irrefl a

/-- The key order is asymmetric. -/
theorem keyLt_asymm (a b : String) (h : keyLt a b = true) : keyLt b a = false := by
  by_cases hba : keyLt b a
  · have := keyLt_trans a b a h hba
    rw [keyLt, charsLt_irrefl] at this
    cases this
  · simpa using hba

/-- A strictly sorted entry list: the head key is below every tail key and
the tail is strictly sorted. -/
theorem keysSortedStrict_cons (k : String) (v : Json) (rest : List (String × Json))
    (h : keysSortedStrict ((k, v) :: rest) = true) :
    keysSortedStrict rest = true ∧ ∀ y ∈ rest, keyLt k y.1 = true := by
  induction rest generalizing k v with
  | nil => exact ⟨rfl, by simp⟩
  | cons kv2 rest2 ih =>
    rw [show keysSortedStrict ((k, v) :: kv2 :: rest2)
        = (keyLt k kv2.1 && keysSortedStrict (kv2 :: rest2)) from by
      cases kv2; rfl] at h
    obtain ⟨h1, h2⟩ := Bool.and_eq_true_iff.mp h
    obtain ⟨h3, h4⟩ := ih kv2.1 kv2.2 (by cases kv2; exact h2)
    refine ⟨h2, ?_⟩
    intro y hy
    rcases List.mem_cons.mp hy with h' | h'
    · rw [h']; exact h1
    · exact keyLt_trans _ _ _ h1 (h4 y h')

/-- Lookup in a strictly sorted entry list finds each entry. -/
theorem lookup_self : ∀ (fields : List (String × Json)),
    keysSortedStrict fields = true → ∀ kv ∈ fields, List.lookup kv.1 fields = some kv.2
  | [], _, kv, hkv => absurd hkv (List.not_mem_nil kv)
  | (k, v) :: rest, hs, kv, hkv => by
    obtain ⟨hrest, hall⟩ := keysSortedStrict_cons k v rest hs
    rcases List.mem_cons.mp hkv with h | h
    · subst h
      simp [List.lookup]
    · have hne : kv.1 ≠ k := by
        intro he
        have := hall kv h
        rw [he, keyLt, charsLt_irrefl] at this
        cases this
      simp only [List.lookup]
      rw [show (kv.1 == k) = false from beq_eq_false_iff_ne.mpr hne]
      exact lookup_self rest hrest kv h

/-- Inserting a key above every present key appends at the end. -/
theorem mapInsert_append_max : ∀ (m : List (String × Json)) (k : String) (v : Json),
    (∀ y ∈ m, keyLt y.1 k = true) → mapInsert k v m = m ++ [(k, v)]
  | [], k, v, _ => rfl
  | (k', v') :: rest, k, v, hall => by
    have hlt : keyLt k' k = true := hall (k', v') (List.mem_cons_self _ _)
    have hne : k ≠ k' := by
      intro he
      rw [he, keyLt, charsLt_irrefl] at hlt
      cases hlt
    simp only [mapInsert]
    rw [if_neg hne, if_neg (by simp [keyLt_asymm k' k hlt]),
      mapInsert_append_max rest k v (fun y hy => hall y (List.mem_cons_of_mem _ hy))]
    simp

/-- Collecting an already strictly sorted entry list is the identity. -/
theorem sortEntries_sorted_fix (fields : List (String × Json))
    (hs : keysSortedStrict fields = true) : sortEntries fields = fields := by
  suffices h : ∀ (fields m : List (String × Json)),
      keysSortedStrict fields = true →
      (∀ y ∈ m, ∀ kv ∈ fields, keyLt y.1 kv.1 = true) →
      fields.foldl (fun m kv => mapInsert kv.1 kv.2 m) m = m ++ fields by
    simpa using h fields [] hs (by simp)
  intro fields
  induction fields with
  | nil => intro m _ _; simp
  | cons kv rest ih =>
    intro m hs hall
    obtain ⟨hrest, hbelow⟩ : keysSortedStrict rest = true ∧
        ∀ y ∈ rest, keyLt kv.1 y.1 = true := by
      cases kv with
      | mk k v => exact keysSortedStrict_cons k v rest hs
    simp only [List.foldl_cons]
    rw [mapInsert_append_max m kv.1 kv.2
      (fun y hy => hall y hy kv (List.mem_cons_self _ _))]
    rw [ih (m ++ [(kv.1, kv.2)]) hrest ?_]
    · simp
    · intro y hy z hz
      rcases List.mem_append.mp hy with h | h
      · exact hall y h z (List.mem_cons_of_mem _ hz)
      · have : y = (kv.1, kv.2) := by simpa using h
        rw [this]
        exact hbelow z hz

/-- A filterMap that always succeeds is a map. -/
theorem filterMap_all_some {α β : Type} (f : α → Option β) (g : α → β) :
    ∀ (l : List α), (∀ x ∈ l, f x = some (g x)) → l.filterMap f = l.map g
  | [], _ => rfl
  | x :: l, hall => by
    rw [List.filterMap_cons, hall x (List.mem_cons_self _ _), List.map_cons,
      filterMap_all_some f g l (fun y hy => hall y (List.mem_cons_of_mem _ hy))]

/-- The rendered header data, in explicit character form. -/
theorem headerFor_data (k : String) :
    (headerFor k).data
      = '[' :: '[' :: ' ' :: '#' :: '#' :: ' ' ::
          (k.data ++ (' ' :: '#' :: '#' :: ' ' :: ']' :: ']' :: ([] : List Char))) := by
  show (("[[ ## " ++ k) ++ " ## ]]").data = _
  rw [String.data_append, String.data_append]
  simp

/-- takeWhile collects exactly a word prefix. -/
theorem takeWhile_word_append : ∀ (k : List Char) (b : Char) (bs : List Char),
    (∀ c ∈ k, isWordChar c = true) → isWordChar b = false →
    (k ++ b :: bs).takeWhile isWordChar = k
  | [], b, bs, _, hb => by simp [List.takeWhile_cons, hb]
  | c :: k, b, bs, hk, hb => by
    have hc : isWordChar c = true := hk c (List.mem_cons_self _ _)
    simp only [List.cons_append, List.takeWhile_cons, hc]
    rw [takeWhile_word_append k b bs (fun x hx => hk x (List.mem_cons_of_mem _ hx)) hb]
    simp

/-- The header regex matches a rendered header at position zero, capturing
the word. -/
theorem matchHeaderAt_header (k : String) (hk : wordName k = true) :
    matchHeaderAt ((headerFor k).data) = some (k, 6 + k.data.length + 6) := by
  obtain ⟨hne, hall⟩ : k.data.isEmpty = false ∧ ∀ c ∈ k.data, isWordChar c = true := by
    have := Bool.and_eq_true_iff.mp hk
    refine ⟨by simpa using this.1, by simpa [List.all_eq_true] using this.2⟩
  rw [headerFor_data]
  show (let w := (k.data ++ (' ' :: '#' :: '#' :: ' ' :: ']' :: ']' ::
      ([] : List Char))).takeWhile isWordChar
    if w.isEmpty then none
    else
      match (k.data ++ (' ' :: '#' :: '#' :: ' ' :: ']' :: ']' ::
          ([] : List Char))).drop w.length with
      | ' ' :: '#' :: '#' :: ' ' :: ']' :: ']' :: _ => some (String.mk w, 6 + w.length + 6)
      | _ => none) = some (k, 6 + k.data.length + 6)
  rw [takeWhile_word_append k.data ' ' _ hall (by decide)]
  simp only [hne, Bool.false_eq_true, if_false, List.drop_left]

/-- Trimming is the identity when both ends are non-whitespace. -/
theorem trimChars_eq_self (l : List Char)
    (h1 : ∀ c, l.head? = some c → isWsChar c = false)
    (h2 : ∀ c, l.getLast? = some c → isWsChar c = false) : trimChars l = l := by
  unfold trimChars
  cases l with
  | nil => rfl
  | cons c rest =>
    rw [List.dropWhile_cons]
    rw [h1 c rfl]
    simp only [Bool.false_eq_true, if_false]
    cases hg : (c :: rest).reverse with
    | nil => simp at hg
    | cons d ds =>
      have hd : (c :: rest).getLast? = some d := by
        rw [← List.head?_reverse, hg]
        rfl
      rw [List.dropWhile_cons, h2 d hd]
      simp only [Bool.false_eq_true, if_false]
      rw [← hg, List.reverse_reverse]

/-- A rendered header line is trim-stable. -/
theorem trimChars_header (k : String) :
    trimChars ((headerFor k).data) = (headerFor k).data := by
  apply trimChars_eq_self
  · intro c hc
    rw [headerFor_data] at hc
    cases hc
    decide
  · intro c hc
    rw [headerFor_data] at hc
    rw [show ('[' :: '[' :: ' ' :: '#' :: '#' :: ' ' ::
        (k.data ++ (' ' :: '#' :: '#' :: ' ' :: ']' :: ']' :: ([] : List Char))))
        = ('[' :: '[' :: ' ' :: '#' :: '#' :: ' ' :: k.data)
          ++ (' ' :: '#' :: '#' :: ' ' :: ']' :: ']' :: ([] : List Char)) from by simp] at hc
    rw [List.getLast?_append_of_ne_nil _ (by simp)] at hc
    cases hc
    decide

/-- The header regex find on a rendered header line. -/
theorem findHeader_header (k : String) (hk : wordName k = true) :
    findHeader ((headerFor k).data) = some (k, 6 + k.data.length + 6) := by
  unfold findHeader
  rw [headerFor_data]
  show (match matchHeaderAt ('[' :: '[' :: ' ' :: '#' :: '#' :: ' ' ::
      (k.data ++ (' ' :: '#' :: '#' :: ' ' :: ']' :: ']' :: ([] : List Char)))) with
    | some (w, len) => some (w, 0 + len)
    | none => findHeaderFrom ('[' :: ' ' :: '#' :: '#' :: ' ' ::
        (k.data ++ (' ' :: '#' :: '#' :: ' ' :: ']' :: ']' :: ([] : List Char)))) 1)
      = some (k, 6 + k.data.length + 6)
  rw [← headerFor_data, matchHeaderAt_header k hk]
  simp

/-- A section-splitting step on a rendered header line opens the section
for the captured word with an empty pending buffer. -/
theorem chatLineStep_header (k : String) (hk : wordName k = true)
    (S : List (Option String × List (List Char))) :
    chatLineStep S ((headerFor k).data) = S ++ [(some k, [])] := by
  unfold chatLineStep
  rw [trimChars_header, findHeader_header k hk]
  have hlen : ((headerFor k).data).length = 6 + k.data.length + 6 := by
    rw [headerFor_data]
    simp
    omega
  show S ++ [(some k,
      if (trimChars (List.drop (6 + k.data.length + 6) (headerFor k).data)).isEmpty = true
      then [] else [trimChars (List.drop (6 + k.data.length + 6) (headerFor k).data)])]
    = S ++ [(some k, [])]
  rw [show List.drop (6 + k.data.length + 6) (headerFor k).data
      = List.drop ((headerFor k).data).length (headerFor k).data from by rw [hlen]]
  rw [List.drop_length]
  simp [trimChars]

/-- A word-named header renders without newlines or carriage returns. -/
theorem header_no_ctrl (k : String) (hk : wordName k = true) :
    '\n' ∉ (headerFor k).data ∧ '\r' ∉ (headerFor k).data := by
  have hall : ∀ c ∈ k.data, isWordChar c = true := by
    have := Bool.and_eq_true_iff.mp hk
    simpa [List.all_eq_true] using this.2
  constructor
  · intro hmem
    rw [headerFor_data] at hmem
    rcases List.mem_cons.mp hmem with h | hmem
    · exact absurd h (by decide)
    rcases List.mem_cons.mp hmem with h | hmem
    · exact absurd h (by decide)
    rcases List.mem_cons.mp hmem with h | hmem
    · exact absurd h (by decide)
    rcases List.mem_cons.mp hmem with h | hmem
    · exact absurd h (by decide)
    rcases List.mem_cons.mp hmem with h | hmem
    · exact absurd h (by decide)
    rcases List.mem_cons.mp hmem with h | hmem
    · exact absurd h (by decide)
    rcases List.mem_append.mp hmem with h | h
    · exact absurd (hall _ h) (by decide)
    · exact absurd h (by decide)
  · intro hmem
    rw [headerFor_data] at hmem
    rcases List.mem_cons.mp hmem with h | hmem
    · exact absurd h (by decide)
    rcases List.mem_cons.mp hmem with h | hmem
    · exact absurd h (by decide)
    rcases List.mem_cons.mp hmem with h | hmem
    · exact absurd h (by decide)
    rcases List.mem_cons.mp hmem with h | hmem
    · exact absurd h (by decide)
    rcases List.mem_cons.mp hmem with h | hmem
    · exact absurd h (by decide)
    rcases List.mem_cons.mp hmem with h | hmem
    · exact absurd h (by decide)
    rcases List.mem_append.mp hmem with h | h
    · exact absurd (hall _ h) (by decide)
    · exact absurd h (by decide)

/-- joinSep with a nonempty tail. -/
theorem joinSep_cons_ne_nil (sep a : String) (l : List String) (hl : l ≠ []) :
    joinSep sep (a :: l) = a ++ sep ++ joinSep sep l := by
  cases l with
  | nil => exact absurd rfl hl
  | cons b l2 => rfl

/-- The section fold over a rendered field/value group list: one section
per field keyed by its name holding its value lines and the separating
blank line, closed by the completed section. -/
theorem chatFold_groups : ∀ (fields : List (String × Json)),
    (∀ kv ∈ fields, wordName kv.1 = true ∧
      ∃ s : String, kv.2 = Json.str s ∧ chatSafeValue s = true) →
    ∀ (sec : Option String × List (List Char)),
    List.foldl chatLineStep [sec]
        (rustLines (joinSep "\n\n"
          (fields.map (fun kv => headerFor kv.1 ++ "\n" ++ formatValue kv.2)
            ++ [headerFor "completed"])).data)
      = sec :: fields.map (fun kv =>
          (some kv.1, splitNl (formatValue kv.2).data ++ [[]]))
        ++ [(some "completed", [])]
  | [], _, sec => by
    show List.foldl chatLineStep [sec] (rustLines (headerFor "completed").data)
      = sec :: [] ++ [(some "completed", [])]
    rw [show rustLines (headerFor "completed").data = [(headerFor "completed").data] from by
      decide]
    show chatLineStep [sec] ((headerFor "completed").data) = _
    rw [chatLineStep_header "completed" (by decide)]
  | (k0, v0) :: rest, hall, sec => by
    obtain ⟨hw, s, hv, hsafe⟩ := hall (k0, v0) (List.mem_cons_self _ _)
    subst hv
    obtain ⟨hts, hnr, hnj, hhf⟩ : trimChars s.data = s.data ∧
        (∀ c ∈ s.data, c ≠ '\r') ∧ jsonParse s = none ∧
        ∀ l ∈ splitNl s.data, isHeaderFree l = true := by
      have h1 := Bool.and_eq_true_iff.mp hsafe
      have h2 := Bool.and_eq_true_iff.mp h1.1
      have h3 := Bool.and_eq_true_iff.mp h2.1
      refine ⟨by simpa using h3.1, by simpa [List.all_eq_true] using h3.2,
        by simpa using h2.2, by simpa [List.all_eq_true] using h1.2⟩
    have hdata : (joinSep "\n\n"
        (((k0, Json.str s) :: rest).map
            (fun kv => headerFor kv.1 ++ "\n" ++ formatValue kv.2)
          ++ [headerFor "completed"])).data
        = (headerFor k0).data ++ '\n' :: (s.data ++ '\n' :: (([] : List Char) ++ '\n' ::
            (joinSep "\n\n" (rest.map
                (fun kv => headerFor kv.1 ++ "\n" ++ formatValue kv.2)
              ++ [headerFor "completed"])).data)) := by
      rw [List.map_cons, List.cons_append,
        joinSep_cons_ne_nil _ _ _ (by simp)]
      rw [String.data_append, String.data_append, String.data_append]
      show ((headerFor k0).data ++ "\n".data ++ s.data) ++ "\n\n".data ++ _ = _
      simp
    rw [hdata, rustLines_append_nl, rustLines_append_nl, rustLines_append_nl]
    rw [splitNl_no_nl _ (header_no_ctrl k0 hw).1]
    rw [show ((splitNl ([] : List Char)).map stripCr) = [([] : List Char)] from by decide]
    rw [show (splitNl s.data).map stripCr = splitNl s.data from by
      conv_rhs => rw [← List.map_id (splitNl s.data)]
      refine List.map_congr_left ?_
      intro l hl
      exact stripCr_no_cr l (fun hc => hnr '\r' (splitNl_mem_sub s.data l hl '\r' hc) rfl)]
    rw [show List.map stripCr [(headerFor k0).data] = [(headerFor k0).data] from by
      show [stripCr (headerFor k0).data] = [(headerFor k0).data]
      rw [stripCr_no_cr _ (header_no_ctrl k0 hw).2]]
    show List.foldl chatLineStep [sec]
        (((headerFor k0).data :: (splitNl s.data ++ ([] :: rustLines _))) : List (List Char)) = _
    rw [List.foldl_cons, chatLineStep_header k0 hw,
      show (splitNl s.data ++ (([] : List Char) :: rustLines (joinSep "\n\n" (rest.map
          (fun kv => headerFor kv.1 ++ "\n" ++ formatValue kv.2)
        ++ [headerFor "completed"])).data))
        = (splitNl s.data ++ [[]]) ++ rustLines (joinSep "\n\n" (rest.map
            (fun kv => headerFor kv.1 ++ "\n" ++ formatValue kv.2)
          ++ [headerFor "completed"])).data from by simp,
      List.foldl_append,
      foldl_sections_append _ [sec] [(some k0, [])] (by simp),
      foldl_headerFree _ ?_ (some k0) []]
    · rw [foldl_sections_append _ [sec] [(some k0, [] ++ (splitNl s.data ++ [[]]))] (by simp),
        chatFold_groups rest (fun kv hkv => hall kv (List.mem_cons_of_mem _ hkv)) _]
      simp [formatValue]
    · intro l hl
      rcases List.mem_append.mp hl with h | h
      · exact hhf l h
      · rw [List.mem_singleton.mp h]
        rfl

/-- Rendering an object whose sorted keys are exactly the schema's field
names produces the delimited group text, one header/value group per field,
closed by the completed header. -/
theorem chatRender_groups (fields : List (String × Json)) (schema : Json)
    (hsorted : keysSortedStrict fields = true)
    (hschema : extractFieldNames schema = fields.map (fun kv => kv.1)) :
    chatFormatAssistantMessageContent (Json.obj fields) schema
      = joinSep "\n\n"
          (fields.map (fun kv => headerFor kv.1 ++ "\n" ++ formatValue kv.2)
            ++ [headerFor "completed"]) := by
  show joinSep "\n\n"
      ((extractFields schema).filterMap (fun kv =>
          ((Json.obj fields).get? kv.1).map
            (fun v => headerFor kv.1 ++ "\n" ++ formatValue v))
        ++ [headerFor "completed"]) = _
  have h1 : (extractFields schema).filterMap (fun kv =>
      ((Json.obj fields).get? kv.1).map
        (fun v => headerFor kv.1 ++ "\n" ++ formatValue v))
      = fields.map (fun kv => headerFor kv.1 ++ "\n" ++ formatValue kv.2) :=
    calc (extractFields schema).filterMap (fun kv =>
          ((Json.obj fields).get? kv.1).map
            (fun v => headerFor kv.1 ++ "\n" ++ formatValue v))
        = ((extractFields schema).map (fun kv => kv.1)).filterMap (fun k =>
            ((Json.obj fields).get? k).map
              (fun v => headerFor k ++ "\n" ++ formatValue v)) :=
          (List.filterMap_map (fun kv : String × FieldInfo => kv.1)
            (fun k => ((Json.obj fields).get? k).map
              (fun v => headerFor k ++ "\n" ++ formatValue v))
            (extractFields schema)).symm
      _ = (fields.map (fun kv => kv.1)).filterMap (fun k =>
            ((Json.obj fields).get? k).map
              (fun v => headerFor k ++ "\n" ++ formatValue v)) := by
          rw [show (extractFields schema).map (fun kv => kv.1)
              = fields.map (fun kv => kv.1) from hschema]
      _ = fields.filterMap (fun kv =>
            ((Json.obj fields).get? kv.1).map
              (fun v => headerFor kv.1 ++ "\n" ++ formatValue v)) :=
          List.filterMap_map (fun kv : String × Json => kv.1)
            (fun k => ((Json.obj fields).get? k).map
              (fun v => headerFor k ++ "\n" ++ formatValue v)) fields
      _ = fields.map (fun kv => headerFor kv.1 ++ "\n" ++ formatValue kv.2) := by
          refine filterMap_all_some _ _ fields ?_
          intro kv hkv
          show ((sortEntries fields).lookup kv.1).map
            (fun v => headerFor kv.1 ++ "\n" ++ formatValue v) = _
          rw [sortEntries_sorted_fix fields hsorted, lookup_self fields hsorted kv hkv]
          rfl
  rw [h1]

/-- Parsing the chat rendering of a sorted object of safe string values
keyed by word names recovers the object. -/
theorem chatAssemble_safe (fields : List (String × Json)) (schema : Json)
    (hsorted : keysSortedStrict fields = true)
    (hschema : extractFieldNames schema = fields.map (fun kv => kv.1))
    (hvals : ∀ kv ∈ fields, wordName kv.1 = true ∧ kv.1 ≠ "completed" ∧
      ∃ s : String, kv.2 = Json.str s ∧ chatSafeValue s = true) :
    chatAssemble (chatFormatAssistantMessageContent (Json.obj fields) schema)
      = Json.obj fields := by
  rw [chatRender_groups fields schema hsorted hschema]
  have hsec : chatSections (joinSep "\n\n"
      (fields.map (fun kv => headerFor kv.1 ++ "\n" ++ formatValue kv.2)
        ++ [headerFor "completed"])).data
      = (none, []) :: fields.map (fun kv =>
          (some kv.1, splitNl (formatValue kv.2).data ++ [[]]))
        ++ [(some "completed", [])] :=
    chatFold_groups fields (fun kv hkv => ⟨(hvals kv hkv).1, (hvals kv hkv).2.2⟩) (none, [])
  have hmid : List.filterMap
      (fun s => (s.1).map (fun k => (k, String.mk (trimChars (joinNl s.2)))))
      (fields.map (fun kv => (some kv.1, splitNl (formatValue kv.2).data ++ [[]])))
      = fields.map (fun kv => (kv.1,
          String.mk (trimChars (joinNl (splitNl (formatValue kv.2).data ++ [[]]))))) := by
    rw [List.filterMap_map]
    exact filterMap_all_some _ _ fields (fun kv hkv => rfl)
  have hkeyed : keyedSections (joinSep "\n\n"
      (fields.map (fun kv => headerFor kv.1 ++ "\n" ++ formatValue kv.2)
        ++ [headerFor "completed"])).data
      = fields.map (fun kv => (kv.1,
          String.mk (trimChars (joinNl (splitNl (formatValue kv.2).data ++ [[]])))))
        ++ [("completed", "")] := by
    show ((chatSections _).filterMap
      (fun s => (s.1).map (fun k => (k, String.mk (trimChars (joinNl s.2)))))) = _
    rw [hsec]
    simp only [List.filterMap_cons, List.filterMap_append, Option.map_none']
    rw [hmid]
    rfl
  show Json.obj (sortEntries
      ((((keyedSections _).filter (fun kv => kv.1 ≠ "completed")).map
        (fun kv => (kv.1, jsonOrString kv.2))))) = _
  rw [hkeyed, List.filter_append]
  rw [show List.filter (fun kv => kv.1 ≠ "completed")
      ([("completed", "")] : List (String × String)) = [] from rfl]
  rw [List.append_nil]
  rw [show List.filter (fun kv => kv.1 ≠ "completed")
      (fields.map (fun kv => (kv.1,
        String.mk (trimChars (joinNl (splitNl (formatValue kv.2).data ++ [[]]))))))
      = fields.map (fun kv => (kv.1,
        String.mk (trimChars (joinNl (splitNl (formatValue kv.2).data ++ [[]]))))) from by
    rw [List.filter_eq_self]
    intro a ha
    obtain ⟨kv, hkv, rfl⟩ := List.mem_map.mp ha
    exact decide_eq_true (hvals kv hkv).2.1]
  rw [List.map_map]
  rw [show fields.map ((fun kv => (kv.1, jsonOrString kv.2)) ∘ (fun kv => (kv.1,
      String.mk (trimChars (joinNl (splitNl (formatValue kv.2).data ++ [[]]))))))
      = fields from by
    conv_rhs => rw [← List.map_id fields]
    refine List.map_congr_left ?_
    intro kv hkv
    obtain ⟨-, -, s, hv, hsafe⟩ := hvals kv hkv
    obtain ⟨hts, hnj⟩ : trimChars s.data = s.data ∧ jsonParse s = none := by
      have h1 := Bool.and_eq_true_iff.mp hsafe
      have h2 := Bool.and_eq_true_iff.mp h1.1
      have h3 := Bool.and_eq_true_iff.mp h2.1
      exact ⟨by simpa using h3.1, by simpa using h2.2⟩
    show (kv.1, jsonOrString
      (String.mk (trimChars (joinNl (splitNl (formatValue kv.2).data ++ [[]]))))) = id kv
    rw [hv]
    show (kv.1, jsonOrString
      (String.mk (trimChars (joinNl (splitNl s.data ++ [[]]))))) = id kv
    rw [joinNl_append_one _ _ (splitNl_ne_nil _), joinNl_splitNl]
    rw [show (s.data ++ '\n' :: ([] : List Char)) = s.data ++ ['\n'] from rfl,
      trimChars_append_nl, hts]
    show (kv.1, jsonOrString s) = id kv
    rw [show jsonOrString s = Json.str s from by
      show (match jsonParse s with | some j => j | none => Json.str s) = _
      rw [hnj]]
    rw [← hv]
    rfl]
  rw [sortEntries_sorted_fix fields hsorted]

/-- A character outside the escape set renders as itself. -/
theorem escapeChar_plain (c : Char) (h1 : c ≠ '"') (h2 : c ≠ '\\') (h3 : c ≠ '\n')
    (h4 : c ≠ '\t') (h5 : c ≠ '\r') : escapeChar c = [c] := by
  unfold escapeChar
  split
  · exact absurd rfl h1
  · exact absurd rfl h2
  · exact absurd rfl h3
  · exact absurd rfl h4
  · exact absurd rfl h5
  · rfl

/-- Escaping a list of plain characters is the identity. -/
theorem flatMap_escape_plain : ∀ (l : List Char), (∀ c ∈ l, escapeChar c = [c]) →
    l.flatMap escapeChar = l
  | [], _ => rfl
  | c :: l, h => by
    show escapeChar c ++ l.flatMap escapeChar = c :: l
    rw [h c (List.mem_cons_self _ _),
      flatMap_escape_plain l (fun x hx => h x (List.mem_cons_of_mem _ hx))]
    rfl

/-- Quoting a plain string inserts only the surrounding quotes. -/
theorem quoteStr_plain (s : String) (h : ∀ c ∈ s.data, escapeChar c = [c]) :
    quoteStr s = '"' :: (s.data ++ ['"']) := by
  unfold quoteStr
  rw [flatMap_escape_plain s.data h]
  rfl

/-- A regex word character is plain for the JSON string syntax and is not a
brace. -/
theorem wordChar_plain (c : Char) (h : isWordChar c = true) :
    (c ≠ '"' ∧ c ≠ '\\') ∧ escapeChar c = [c] ∧ c ≠ '{' ∧ c ≠ '}' := by
  have hne : ∀ d : Char, isWordChar d = false → c ≠ d := by
    intro d hd he
    subst he
    rw [h] at hd
    exact absurd hd (by decide)
  exact ⟨⟨hne '"' (by decide), hne '\\' (by decide)⟩,
    escapeChar_plain c (hne '"' (by decide)) (hne '\\' (by decide)) (hne '\n' (by decide))
      (hne '\t' (by decide)) (hne '\r' (by decide)),
    hne '{' (by decide), hne '}' (by decide)⟩

/-- Unpacking jsonSafeValue: every character is plain and brace-free. -/
theorem jsonSafeValue_plain (s : String) (h : jsonSafeValue s = true) :
    ∀ c ∈ s.data, (c ≠ '"' ∧ c ≠ '\\') ∧ escapeChar c = [c] ∧ c ≠ '{' ∧ c ≠ '}' := by
  intro c hc
  have hall : ∀ c ∈ s.data,
      (decide (c ≠ '{') && decide (c ≠ '}') && decide (c ≠ '"') && decide (c ≠ '\\') &&
        decide (c ≠ '\n') && decide (c ≠ '\t') && decide (c ≠ '\r')) = true := by
    simpa [jsonSafeValue, List.all_eq_true] using h
  have hcc := hall c hc
  simp only [Bool.and_eq_true, decide_eq_true_eq] at hcc
  obtain ⟨⟨⟨⟨⟨⟨h1, h2⟩, h3⟩, h4⟩, h5⟩, h6⟩, h7⟩ := hcc
  exact ⟨⟨h3, h4⟩, escapeChar_plain c h3 h4 h5 h6 h7, h1, h2⟩

/-- A word name is plain for the JSON string syntax. -/
theorem wordName_plain (k : String) (h : wordName k = true) :
    ∀ c ∈ k.data, (c ≠ '"' ∧ c ≠ '\\') ∧ escapeChar c = [c] ∧ c ≠ '{' ∧ c ≠ '}' := by
  intro c hc
  have hall : ∀ c ∈ k.data, isWordChar c = true := by
    have := Bool.and_eq_true_iff.mp h
    simpa [List.all_eq_true] using this.2
  exact wordChar_plain c (hall c hc)

/-- Parsing a plain string body stops exactly at the closing quote. -/
theorem parseStrBody_plain : ∀ (cs : List Char), (∀ c ∈ cs, c ≠ '"' ∧ c ≠ '\\') →
    ∀ tail, parseStrBody (cs ++ '"' :: tail) = some (cs, tail)
  | [], _, tail => rfl
  | c :: cs, h, tail => by
    obtain ⟨h1, h2⟩ := h c (List.mem_cons_self _ _)
    show parseStrBody (c :: (cs ++ '"' :: tail)) = some (c :: cs, tail)
    unfold parseStrBody
    split
    next heq => exact absurd heq (by simp)
    next rest heq =>
      exact absurd ((List.cons.injEq _ _ _ _).mp heq).1 h1
    next e rest heq =>
      exact absurd ((List.cons.injEq _ _ _ _).mp heq).1 h2
    next c2 rest h3 h4 h5 =>
      obtain ⟨hc, hr⟩ := (List.cons.injEq _ _ _ _).mp h5
      subst hc
      subst hr
      rw [if_neg h2]
      rw [parseStrBody_plain cs (fun x hx => h x (List.mem_cons_of_mem _ hx)) tail]
      rfl

/-- Parsing an opening brace whose member area starts with a quote hands
off to the member parser. -/
theorem parseV_obj (m : Nat) (cs R Z : List Char) (hcs : skipWs cs = '{' :: R)
    (hR : skipWs R = '"' :: Z) :
    parseV (m + 1) cs = parseMembers m ('"' :: Z) [] := by
  conv_lhs => whnf
  rw [hcs]
  conv_lhs => whnf
  rw [hR]
  rfl

/-- Parsing a space-led quoted plain string value. -/
theorem parseV_str (m : Nat) (s : String) (hs : ∀ c ∈ s.data, c ≠ '"' ∧ c ≠ '\\')
    (tail : List Char) :
    parseV (m + 1) (' ' :: '"' :: (s.data ++ '"' :: tail)) = some (.str s, tail) := by
  conv_lhs => whnf
  rw [parseStrBody_plain s.data hs tail]

/-- Member-parser step consuming the final rendered member before the
closing brace. -/
theorem parseMembers_last (fuel : Nat) (k s : String) (acc : List (String × Json))
    (hk : ∀ c ∈ k.data, c ≠ '"' ∧ c ≠ '\\') (hs : ∀ c ∈ s.data, c ≠ '"' ∧ c ≠ '\\') :
    parseMembers (fuel + 2)
        ('"' :: (k.data ++ '"' :: ':' :: ' ' :: '"' :: (s.data ++ ['"', '\n', '}']))) acc
      = some (.obj (sortEntries (acc ++ [(k, Json.str s)])), []) := by
  conv_lhs => whnf
  rw [parseStrBody_plain k.data hk (':' :: ' ' :: '"' :: (s.data ++ ['"', '\n', '}']))]
  conv_lhs => whnf
  rw [parseV_str fuel s hs ['\n', '}']]
  rfl

/-- Member-parser step consuming one rendered member followed by a comma
and newline. -/
theorem parseMembers_more (fuel : Nat) (k s : String) (acc : List (String × Json))
    (R : List Char)
    (hk : ∀ c ∈ k.data, c ≠ '"' ∧ c ≠ '\\') (hs : ∀ c ∈ s.data, c ≠ '"' ∧ c ≠ '\\') :
    parseMembers (fuel + 2)
        ('"' :: (k.data ++ '"' :: ':' :: ' ' :: '"' :: (s.data ++ '"' :: ',' :: '\n' :: R))) acc
      = parseMembers (fuel + 1) (skipWs R) (acc ++ [(k, Json.str s)]) := by
  conv_lhs => whnf
  rw [parseStrBody_plain k.data hk (':' :: ' ' :: '"' :: (s.data ++ '"' :: ',' :: '\n' :: R))]
  conv_lhs => whnf
  rw [parseV_str fuel s hs (',' :: '\n' :: R)]
  rfl

/-- Over a brace-free middle the innermost-pair scan takes exactly the
middle and stops at the closing brace. -/
theorem takeWhile_nobrace (tail : List Char) : ∀ (mid : List Char),
    (∀ c ∈ mid, c ≠ '{' ∧ c ≠ '}') →
    (mid ++ '}' :: tail).takeWhile (fun c => !(c = '{' || c = '}')) = mid ∧
    (mid ++ '}' :: tail).drop mid.length = '}' :: tail
  | [], _ => ⟨rfl, rfl⟩
  | c :: mid, h => by
    obtain ⟨h1, h2⟩ := h c (List.mem_cons_self _ _)
    obtain ⟨ih1, ih2⟩ := takeWhile_nobrace tail mid
      (fun x hx => h x (List.mem_cons_of_mem _ hx))
    constructor
    · show List.takeWhile _ (c :: (mid ++ '}' :: tail)) = c :: mid
      rw [List.takeWhile_cons, if_pos (by simp [h1, h2]), ih1]
    · show List.drop (mid.length + 1) (c :: (mid ++ '}' :: tail)) = '}' :: tail
      simp [ih2]

/-- The innermost-pair match on an opening brace followed by a brace-free
middle and a closing brace is the whole span. -/
theorem braceSpanAt_nobrace (mid : List Char) (h : ∀ c ∈ mid, c ≠ '{' ∧ c ≠ '}') :
    braceSpanAt ('{' :: (mid ++ '}' :: [])) = some ('{' :: (mid ++ ['}'])) := by
  obtain ⟨h1, h2⟩ := takeWhile_nobrace [] mid h
  conv_lhs => whnf
  rw [h1, h2]
  rfl

/-- The canonical character shape of the last rendered member. -/
theorem ppFields_shape_last (k s : String)
    (hk : ∀ c ∈ k.data, escapeChar c = [c]) (hs : ∀ c ∈ s.data, escapeChar c = [c]) :
    (ppFields [(k, Json.str s)] 2).drop 2 ++ '\n' :: ['}']
      = '"' :: (k.data ++ '"' :: ':' :: ' ' :: '"' :: (s.data ++ ['"', '\n', '}'])) := by
  show (spaces 2 ++ quoteStr k ++ ':' :: ' ' :: ppJson (Json.str s) 2).drop 2
      ++ '\n' :: ['}'] = _
  rw [show ppJson (Json.str s) 2 = quoteStr s from rfl,
    quoteStr_plain k hk, quoteStr_plain s hs,
    show spaces 2 = [' ', ' '] from rfl]
  simp

/-- The canonical character shape of a rendered member followed by more
members. -/
theorem ppFields_shape_more (k s : String) (g : String × Json) (gs : List (String × Json))
    (hk : ∀ c ∈ k.data, escapeChar c = [c]) (hs : ∀ c ∈ s.data, escapeChar c = [c]) :
    (ppFields ((k, Json.str s) :: g :: gs) 2).drop 2 ++ '\n' :: ['}']
      = '"' :: (k.data ++ '"' :: ':' :: ' ' :: '"' ::
          (s.data ++ '"' :: ',' :: '\n' :: (ppFields (g :: gs) 2 ++ '\n' :: ['}']))) := by
  show (spaces 2 ++ quoteStr k ++ ':' :: ' ' :: ppJson (Json.str s) 2
      ++ ',' :: '\n' :: ppFields (g :: gs) 2).drop 2 ++ '\n' :: ['}'] = _
  rw [show ppJson (Json.str s) 2 = quoteStr s from rfl,
    quoteStr_plain k hk, quoteStr_plain s hs,
    show spaces 2 = [' ', ' '] from rfl]
  simp

/-- Brace-freeness is preserved by append. -/
theorem noBrace_append (a b : List Char) (ha : ∀ c ∈ a, c ≠ '{' ∧ c ≠ '}')
    (hb : ∀ c ∈ b, c ≠ '{' ∧ c ≠ '}') : ∀ c ∈ a ++ b, c ≠ '{' ∧ c ≠ '}' :=
  fun c hc => (List.mem_append.mp hc).elim (ha c) (hb c)

/-- Brace-freeness is preserved by cons. -/
theorem noBrace_cons (d : Char) (l : List Char) (hd : d ≠ '{' ∧ d ≠ '}')
    (hl : ∀ c ∈ l, c ≠ '{' ∧ c ≠ '}') : ∀ c ∈ d :: l, c ≠ '{' ∧ c ≠ '}' :=
  fun c hc => (List.mem_cons.mp hc).elim (fun he => he ▸ hd) (hl c)

/-- Leading whitespace of a rendered member list is exactly its two-space
indent. -/
theorem skipWs_ppFields (T : List Char) : ∀ (fs : List (String × Json)), fs ≠ [] →
    skipWs (ppFields fs 2 ++ T) = (ppFields fs 2).drop 2 ++ T
  | [], h => absurd rfl h
  | [(_, _)], _ => rfl
  | (_, _) :: _ :: _, _ => rfl

/-- A rendered member list starts with the quote of its first key. -/
theorem ppFields_drop_head (T : List Char) : ∀ (fs : List (String × Json)), fs ≠ [] →
    (ppFields fs 2).drop 2 ++ T = '"' :: ((ppFields fs 2).drop 3 ++ T)
  | [], h => absurd rfl h
  | [(_, _)], _ => rfl
  | (_, _) :: _ :: _, _ => rfl

/-- Each member contributes at least one character to the rendering. -/
theorem ppFields_len : ∀ (fs : List (String × Json)), fs.length ≤ (ppFields fs 2).length
  | [] => Nat.le_refl 0
  | [(k, v)] => by
    show (1 : Nat) ≤ (spaces 2 ++ quoteStr k ++ ':' :: ' ' :: ppJson v 2).length
    simp [List.length_append, spaces]
  | (k, v) :: g :: gs => by
    show ((g :: gs).length + 1)
      ≤ (spaces 2 ++ quoteStr k ++ ':' :: ' ' :: ppJson v 2
          ++ ',' :: '\n' :: ppFields (g :: gs) 2).length
    have hrec := ppFields_len (g :: gs)
    simp only [List.length_append, List.length_cons, spaces, List.length_replicate]
    simp only [List.length_cons] at hrec
    omega

/-- The rendering of word-keyed json-safe string members contains no
brace. -/
theorem ppFields_nobrace : ∀ (fs : List (String × Json)),
    (∀ kv ∈ fs, wordName kv.1 = true ∧
      ∃ s : String, kv.2 = Json.str s ∧ jsonSafeValue s = true) →
    ∀ c ∈ ppFields fs 2, c ≠ '{' ∧ c ≠ '}'
  | [], _ => by intro c hc; exact absurd hc (List.not_mem_nil c)
  | [(k, v)], hall => by
    obtain ⟨hw, s, hv, hsafe⟩ := hall (k, v) (List.mem_cons_self _ _)
    subst hv
    have hk := wordName_plain k hw
    have hs := jsonSafeValue_plain s hsafe
    have hshape : ppFields [(k, Json.str s)] 2
        = spaces 2 ++ '"' :: (k.data ++ '"' :: ':' :: ' ' :: '"' :: (s.data ++ ['"'])) := by
      show spaces 2 ++ quoteStr k ++ ':' :: ' ' :: ppJson (Json.str s) 2 = _
      rw [show ppJson (Json.str s) 2 = quoteStr s from rfl,
        quoteStr_plain k (fun c hc => (hk c hc).2.1),
        quoteStr_plain s (fun c hc => (hs c hc).2.1)]
      simp
    rw [hshape]
    refine noBrace_append _ _ (by decide) ?_
    refine noBrace_cons _ _ (by decide) ?_
    refine noBrace_append _ _ (fun c hc => (hk c hc).2.2) ?_
    refine noBrace_cons _ _ (by decide) (noBrace_cons _ _ (by decide)
      (noBrace_cons _ _ (by decide) (noBrace_cons _ _ (by decide) ?_)))
    exact noBrace_append _ _ (fun c hc => (hs c hc).2.2) (by decide)
  | (k, v) :: g :: gs, hall => by
    obtain ⟨hw, s, hv, hsafe⟩ := hall (k, v) (List.mem_cons_self _ _)
    subst hv
    have hk := wordName_plain k hw
    have hs := jsonSafeValue_plain s hsafe
    have hshape : ppFields ((k, Json.str s) :: g :: gs) 2
        = spaces 2 ++ '"' :: (k.data ++ '"' :: ':' :: ' ' :: '"' ::
            (s.data ++ '"' :: ',' :: '\n' :: ppFields (g :: gs) 2)) := by
      show spaces 2 ++ quoteStr k ++ ':' :: ' ' :: ppJson (Json.str s) 2
          ++ ',' :: '\n' :: ppFields (g :: gs) 2 = _
      rw [show ppJson (Json.str s) 2 = quoteStr s from rfl,
        quoteStr_plain k (fun c hc => (hk c hc).2.1),
        quoteStr_plain s (fun c hc => (hs c hc).2.1)]
      simp
    rw [hshape]
    refine noBrace_append _ _ (by decide) ?_
    refine noBrace_cons _ _ (by decide) ?_
    refine noBrace_append _ _ (fun c hc => (hk c hc).2.2) ?_
    refine noBrace_cons _ _ (by decide) (noBrace_cons _ _ (by decide)
      (noBrace_cons _ _ (by decide) (noBrace_cons _ _ (by decide) ?_)))
    refine noBrace_append _ _ (fun c hc => (hs c hc).2.2) ?_
    refine noBrace_cons _ _ (by decide) (noBrace_cons _ _ (by decide)
      (noBrace_cons _ _ (by decide) ?_))
    exact ppFields_nobrace (g :: gs) (fun kv hkv => hall kv (List.mem_cons_of_mem _ hkv))

/-- The member parser consumes the whole rendered member area of a flat
word-keyed json-safe string object and returns the collected map. -/
theorem parseMembers_flat : ∀ (fs : List (String × Json)),
    (∀ kv ∈ fs, wordName kv.1 = true ∧
      ∃ s : String, kv.2 = Json.str s ∧ jsonSafeValue s = true) →
    ∀ (acc : List (String × Json)) (fuel : Nat), fs.length ≤ fuel → fs ≠ [] →
    parseMembers (fuel + 1) ((ppFields fs 2).drop 2 ++ '\n' :: ['}']) acc
      = some (.obj (sortEntries (acc ++ fs)), [])
  | [], _, _, _, _, hne => absurd rfl hne
  | [(k, v)], hall, acc, fuel, hfuel, _ => by
    obtain ⟨hw, s, hv, hsafe⟩ := hall (k, v) (List.mem_cons_self _ _)
    subst hv
    have hk := wordName_plain k hw
    have hs := jsonSafeValue_plain s hsafe
    obtain ⟨m, rfl⟩ : ∃ m, fuel = m + 1 := ⟨fuel - 1, by simp at hfuel; omega⟩
    rw [ppFields_shape_last k s (fun c hc => (hk c hc).2.1) (fun c hc => (hs c hc).2.1)]
    exact parseMembers_last m k s acc (fun c hc => (hk c hc).1) (fun c hc => (hs c hc).1)
  | (k, v) :: g :: gs, hall, acc, fuel, hfuel, _ => by
    obtain ⟨hw, s, hv, hsafe⟩ := hall (k, v) (List.mem_cons_self _ _)
    subst hv
    have hk := wordName_plain k hw
    have hs := jsonSafeValue_plain s hsafe
    obtain ⟨m, rfl⟩ : ∃ m, fuel = m + 1 := ⟨fuel - 1, by simp at hfuel; omega⟩
    rw [ppFields_shape_more k s g gs (fun c hc => (hk c hc).2.1) (fun c hc => (hs c hc).2.1)]
    rw [parseMembers_more m k s acc _ (fun c hc => (hk c hc).1) (fun c hc => (hs c hc).1)]
    rw [skipWs_ppFields ('\n' :: ['}']) (g :: gs) (by simp)]
    rw [parseMembers_flat (g :: gs)
      (fun kv hkv => hall kv (List.mem_cons_of_mem _ hkv))
      (acc ++ [(k, Json.str s)]) m (by simp at hfuel ⊢; omega) (by simp)]
    rw [show (acc ++ [(k, Json.str s)]) ++ (g :: gs) = acc ++ ((k, Json.str s) :: g :: gs)
      from by simp]

/-- JsonAdapter::parse inverts the pretty rendering of a sorted flat object
of word-keyed json-safe string values, for any typed decode stage. -/
theorem jsonAdapterParse_safe {α : Type} (decode : Json → Except String α)
    (fields : List (String × Json)) (schema : Json)
    (hsorted : keysSortedStrict fields = true)
    (hvals : ∀ kv ∈ fields, wordName kv.1 = true ∧
      ∃ s : String, kv.2 = Json.str s ∧ jsonSafeValue s = true) :
    jsonAdapterParse decode (jsonFormatAssistantMessageContent (Json.obj fields) schema) schema
      = decode (Json.obj fields) := by
  match fields, hsorted, hvals with
  | [], _, _ => rfl
  | (k0, v0) :: fr, hsorted, hvals =>
    have hne : ((k0, v0) :: fr : List (String × Json)) ≠ [] := by simp
    have hmid : ∀ c ∈ ('\n' :: (ppFields ((k0, v0) :: fr) 2 ++ ['\n'])), c ≠ '{' ∧ c ≠ '}' :=
      noBrace_cons _ _ (by decide)
        (noBrace_append _ _ (ppFields_nobrace _ hvals) (by decide))
    have hrest : ('\n' :: (ppFields ((k0, v0) :: fr) 2 ++ '\n' :: ['}']))
        = ('\n' :: (ppFields ((k0, v0) :: fr) 2 ++ ['\n'])) ++ '}' :: [] := by simp
    have hspan : findJsonSpan ('{' :: ('\n' :: (ppFields ((k0, v0) :: fr) 2 ++ '\n' :: ['}'])))
        = some ('{' :: ('\n' :: (ppFields ((k0, v0) :: fr) 2 ++ '\n' :: ['}']))) := by
      rw [hrest]
      simp only [findJsonSpan]
      rw [braceSpanAt_nobrace _ hmid]
    have hR : skipWs ('\n' :: (ppFields ((k0, v0) :: fr) 2 ++ '\n' :: ['}']))
        = '"' :: ((ppFields ((k0, v0) :: fr) 2).drop 3 ++ '\n' :: ['}']) := by
      rw [show skipWs ('\n' :: (ppFields ((k0, v0) :: fr) 2 ++ '\n' :: ['}']))
          = skipWs (ppFields ((k0, v0) :: fr) 2 ++ '\n' :: ['}']) from rfl,
        skipWs_ppFields ('\n' :: ['}']) _ hne, ppFields_drop_head ('\n' :: ['}']) _ hne]
    obtain ⟨m, hm, hmb⟩ : ∃ m,
        ('{' :: ('\n' :: (ppFields ((k0, v0) :: fr) 2 ++ '\n' :: ['}']))).length = m + 1 ∧
          ((k0, v0) :: fr).length ≤ m := by
      refine ⟨('{' :: ('\n' :: (ppFields ((k0, v0) :: fr) 2 ++ '\n' :: ['}']))).length - 1, ?_, ?_⟩
      · simp
      · have := ppFields_len ((k0, v0) :: fr)
        simp only [List.length_cons, List.length_append] at this ⊢
        omega
    have hparse : jsonParseChars ('{' :: ('\n' :: (ppFields ((k0, v0) :: fr) 2 ++ '\n' :: ['}'])))
        = some (Json.obj ((k0, v0) :: fr)) := by
      simp only [jsonParseChars]
      rw [parseV_obj ('{' :: ('\n' :: (ppFields ((k0, v0) :: fr) 2 ++ '\n' :: ['}']))).length
        ('{' :: ('\n' :: (ppFields ((k0, v0) :: fr) 2 ++ '\n' :: ['}'])))
        ('\n' :: (ppFields ((k0, v0) :: fr) 2 ++ '\n' :: ['}']))
        ((ppFields ((k0, v0) :: fr) 2).drop 3 ++ '\n' :: ['}']) rfl hR]
      rw [← ppFields_drop_head ('\n' :: ['}']) _ hne]
      rw [hm]
      rw [parseMembers_flat ((k0, v0) :: fr) hvals [] m hmb hne]
      rw [show sortEntries (([] : List (String × Json)) ++ ((k0, v0) :: fr))
          = (k0, v0) :: fr from sortEntries_sorted_fix _ hsorted]
      rfl
    show jsonAdapterParse decode (toStringPretty (Json.obj ((k0, v0) :: fr))) schema
      = decode (Json.obj ((k0, v0) :: fr))
    simp only [jsonAdapterParse]
    rw [show (toStringPretty (Json.obj ((k0, v0) :: fr))).data
        = '{' :: ('\n' :: (ppFields ((k0, v0) :: fr) 2 ++ '\n' :: ['}'])) from by
      simp [toStringPretty, ppJson, spaces]]
    rw [hspan, Option.getD_some, hparse]

/-- C1 (counterexample): parsing the adapter's own rendering does not
return an equal value in general.  The delimited variant re-types the
string output "42" as the JSON number 42, and the JSON variant fails to
parse its own rendering of a string value containing a closing brace
because the extracted brace span ends inside the string literal. -/
theorem C1_counterexample :
    (chatParse Except.ok (chatFormatAssistantMessageContent
        (Json.obj [("answer", Json.str "42")]) qaPromptOutputSchema) qaPromptOutputSchema
      ≠ Except.ok (Json.obj [("answer", Json.str "42")]))
    ∧ (jsonAdapterParse Except.ok (jsonFormatAssistantMessageContent
        (Json.obj [("answer", Json.str "x\x7dy")]) qaPromptOutputSchema) qaPromptOutputSchema
      ≠ Except.ok (Json.obj [("answer", Json.str "x\x7dy")])) := by
  decide

/-- C1 (amended): the round trip parse ∘ format_assistant_message_content
= id holds for both adapters on the safe output class: objects in map
order whose keys are exactly the schema's word-named fields (none named
"completed") and whose values are strings that are trim-stable, carriage-
return-free, not themselves parseable as JSON, contain no section-header
line and no brace, quote, backslash, newline, tab or other escaped
character. -/
theorem C1_round_trip_safe (fields : List (String × Json)) (schema : Json)
    (hsorted : keysSortedStrict fields = true)
    (hschema : extractFieldNames schema = fields.map (fun kv => kv.1))
    (hvals : ∀ kv ∈ fields, wordName kv.1 = true ∧ kv.1 ≠ "completed" ∧
      ∃ s : String, kv.2 = Json.str s ∧ chatSafeValue s = true ∧ jsonSafeValue s = true) :
    chatParse Except.ok (chatFormatAssistantMessageContent (Json.obj fields) schema) schema
        = Except.ok (Json.obj fields)
      ∧ jsonAdapterParse Except.ok
          (jsonFormatAssistantMessageContent (Json.obj fields) schema) schema
        = Except.ok (Json.obj fields) := by
  constructor
  · show Except.ok (chatAssemble (chatFormatAssistantMessageContent (Json.obj fields) schema))
      = Except.ok (Json.obj fields)
    rw [chatAssemble_safe fields schema hsorted hschema (fun kv hkv => by
      obtain ⟨h1, h2, s, hv, hc, hj⟩ := hvals kv hkv
      exact ⟨h1, h2, s, hv, hc⟩)]
  · exact jsonAdapterParse_safe Except.ok fields schema hsorted (fun kv hkv => by
      obtain ⟨h1, h2, s, hv, hc, hj⟩ := hvals kv hkv
      exact ⟨h1, s, hv, hj⟩)

/-- C1 witness: the amended round trip at a concrete safe output. -/
theorem C1_witness :
    chatParse Except.ok (chatFormatAssistantMessageContent
        (Json.obj [("answer", Json.str "hello world")]) qaPromptOutputSchema)
        qaPromptOutputSchema
      = Except.ok (Json.obj [("answer", Json.str "hello world")])
    ∧ jsonAdapterParse Except.ok (jsonFormatAssistantMessageContent
        (Json.obj [("answer", Json.str "hello world")]) qaPromptOutputSchema)
        qaPromptOutputSchema
      = Except.ok (Json.obj [("answer", Json.str "hello world")]) :=
  C1_round_trip_safe [("answer", Json.str "hello world")] qaPromptOutputSchema
    (by decide) (by decide)
    (by
      intro kv hkv
      rw [List.mem_singleton] at hkv
      subst hkv
      exact ⟨by decide, by decide, "hello world", rfl, by decide, by decide⟩)
